import Mathlib

/-
Verification of the weighted empirical sample collection
(`pyprob/distributions/empirical.py`, class `Empirical`).

The class is shallowly embedded as a pure state record `Emp V`:
  * python floats (log-weights, statistics) are modelled as rationals;
  * the `shelve` persistent store is modelled as a record `Shelf V` holding
    the integer-keyed value entries, the three reserved metadata keys
    (`name`, `log_weights`, `last_key`), a closed flag and a sync counter;
  * fallible operations return `Except PyErr _`, with one `PyErr`
    constructor per distinct Python exception the source can raise;
  * `torch.log` (used to convert `weight` to `log_weight`) is kept as an
    abstract function parameter `plog`, and the soft-max normalisation of
    `Categorical.probs` as an abstract parameter `psoftmax`; no claim below
    depends on their values beyond what is stated.
  * `pyprob.distributions.Categorical` is not part of the given sources.
    Modelled from the spec: `CategoricalWeighting.logits` is a copy of the
    `log_weights` sequence captured at finalize, and `probabilities` is its
    soft-max normalisation.  Hence `_get_log_weight i` returns
    `log_weights[i]` and `probs` is `psoftmax log_weights`.
  * `util.to_tensor` (also outside the given sources) is the identity on
    the numeric model.

Python's in-place mutation is modelled by state passing.  The single place
where object identity (aliasing of list attributes) is observable to the
claims - `copy.copy` producing a shallow copy - is modelled separately by a
small reference/heap model (`PyStore` / `EmpRef`) at the end of the
definitions section.
-/

namespace PyProbEmp

/-- Exception kinds raised by the modelled code paths.  Each constructor
names a concrete Python exception site in `empirical.py`.
`emptyDistribution` is the error kind named by the specification for
statistics on empty collections; it is included so that statements about it
can be formed (the code itself never raises it). -/
inductive PyErr where
  /-- `ValueError: invalid operation on closed shelf` from `shelve`. -/
  | valueErrorClosedShelf
  /-- `RuntimeError('Empirical not finalized. Call finalize first.')`. -/
  | runtimeNotFinalized
  /-- `IndexError` from an out-of-range sequence / tensor index. -/
  | indexError
  /-- `KeyError` from a missing shelve key. -/
  | keyError
  /-- `AttributeError` (e.g. `._on_disk` on a non-Empirical object, or a
  method on `self._categorical` while it is still `None`). -/
  | attributeError
  /-- `TypeError('Combination is only supported between Empirical
  distributions.')`. -/
  | typeErrorNotEmpirical
  /-- `RuntimeError('Expecting all Empirical distributions to be on disk or
  in memory.')`. -/
  | runtimeMismatchedMode
  /-- `RuntimeError('Expecting a target file_name for the combined
  Empirical.')`. -/
  | runtimeMissingFileName
  /-- `RuntimeError('Combination is only supported between Empirical
  distributions of equal length.')`. -/
  | runtimeLengthMismatch
  /-- `RuntimeError('Cannot compute the minimum and maximum of values in
  this Empirical. ...')` - the blanket handler in `_find_min_max`. -/
  | runtimeCannotMinMax
  /-- `TypeError` from `float(v)` on a non-scalar value. -/
  | typeErrorNotScalar
  /-- `ZeroDivisionError` (division by `self._length`). -/
  | zeroDivisionError
  /-- The `EmptyDistribution` error kind of the specification (never raised
  by the code). -/
  | emptyDistribution
deriving DecidableEq

/-- Decidable equality of `Except` results, so that concrete runs can be
checked by `decide`. -/
instance {ε α : Type} [DecidableEq ε] [DecidableEq α] :
    DecidableEq (Except ε α) := fun x y =>
  match x, y with
  | .ok a, .ok b =>
    if h : a = b then isTrue (by rw [h])
    else isFalse (by intro hh; cases hh; exact h rfl)
  | .error a, .error b =>
    if h : a = b then isTrue (by rw [h])
    else isFalse (by intro hh; cases hh; exact h rfl)
  | .ok _, .error _ => isFalse (by intro hh; cases hh)
  | .error _, .ok _ => isFalse (by intro hh; cases hh)

/-- Model of a `shelve` store opened with `writeback=True`: the integer
(`str(i)`) keyed value entries, the three reserved metadata keys, whether
the shelf has been closed, and how many times `sync` has been performed
(a close also syncs).  New integer-key writes are prepended; `lookup`
returns the most recent write, matching dict overwrite semantics. -/
structure Shelf (V : Type) where
  items : List (Int × V)
  metaName : Option String
  metaLogWeights : Option (List ℚ)
  metaLastKey : Option Int
  closed : Bool
  syncCount : Nat
deriving DecidableEq

/-- A freshly created shelf file: no keys yet. -/
def Shelf.empty {V : Type} : Shelf V :=
  { items := [], metaName := none, metaLogWeights := none,
    metaLastKey := none, closed := false, syncCount := 0 }

/-- `self._shelf[str(k)] = v`. -/
def Shelf.setVal {V : Type} (sh : Shelf V) (k : Int) (v : V) :
    Except PyErr (Shelf V) :=
  if sh.closed then .error .valueErrorClosedShelf
  else .ok { sh with items := (k, v) :: sh.items }

/-- `self._shelf[str(k)]`. -/
def Shelf.getVal {V : Type} (sh : Shelf V) (k : Int) : Except PyErr V :=
  if sh.closed then .error .valueErrorClosedShelf
  else
    match sh.items.lookup k with
    | some v => .ok v
    | none => .error .keyError

/-- `self._shelf['name'] = nm`. -/
def Shelf.setName {V : Type} (sh : Shelf V) (nm : String) :
    Except PyErr (Shelf V) :=
  if sh.closed then .error .valueErrorClosedShelf
  else .ok { sh with metaName := some nm }

/-- `self._shelf['log_weights'] = lws`. -/
def Shelf.setLogWeights {V : Type} (sh : Shelf V) (lws : List ℚ) :
    Except PyErr (Shelf V) :=
  if sh.closed then .error .valueErrorClosedShelf
  else .ok { sh with metaLogWeights := some lws }

/-- `self._shelf['last_key'] = k`. -/
def Shelf.setLastKey {V : Type} (sh : Shelf V) (k : Int) :
    Except PyErr (Shelf V) :=
  if sh.closed then .error .valueErrorClosedShelf
  else .ok { sh with metaLastKey := some k }

/-- `self._shelf.sync()`. -/
def Shelf.sync {V : Type} (sh : Shelf V) : Except PyErr (Shelf V) :=
  if sh.closed then .error .valueErrorClosedShelf
  else .ok { sh with syncCount := sh.syncCount + 1 }

/-- `self._shelf.close()` - performs a final sync and releases the store. -/
def Shelf.closeShelf {V : Type} (sh : Shelf V) : Except PyErr (Shelf V) :=
  if sh.closed then .error .valueErrorClosedShelf
  else .ok { sh with closed := true, syncCount := sh.syncCount + 1 }

/-- The mutable state of an `Empirical` object.  Field names follow the
Python attributes (`_finalized`, `_closed`, `_categorical`, `_log_weights`,
`_length`, `_on_disk`, `_values`, `_shelf`, `_file_last_key`,
`_file_sync_timeout`, `_file_sync_countdown`, `name`, `_uniform_weights`,
and the six statistics cache slots).  For an in-memory collection the
shelf/file fields are unused (the Python object does not even carry them);
they are kept at inert defaults. -/
structure Emp (V : Type) where
  finalized : Bool
  closedFlag : Bool
  categorical : Option (List ℚ)
  log_weights : List ℚ
  length : Nat
  on_disk : Bool
  values : List V
  shelf : Shelf V
  file_last_key : Int
  file_sync_timeout : Int
  file_sync_countdown : Int
  name : String
  uniform_weights : Bool
  cacheMean : Option ℚ
  cacheVariance : Option ℚ
  cacheMode : Option V
  cacheMin : Option ℚ
  cacheMax : Option ℚ
  cacheEss : Option ℚ
deriving DecidableEq

/-- `Empirical.finalize`: rebuilds the categorical weighting from the
current log-weights (`logits[0]` raises `IndexError` on an empty sequence,
so an empty collection can never be finalized), flags the uniform-weights
special case by equality of every logit with the first one, refreshes
`_length`, and in persistent mode writes the metadata keys and syncs. -/
def Emp.finalize {V : Type} (e : Emp V) : Except PyErr (Emp V) :=
  match e.log_weights with
  | [] => .error .indexError
  | w :: ws =>
    let logits := w :: ws
    let e1 := { e with categorical := some logits,
                       uniform_weights := logits.all fun x => decide (x = w),
                       length := logits.length }
    if e1.on_disk then do
      let s1 ← e1.shelf.setName e1.name
      let s2 ← s1.setLogWeights e1.log_weights
      let s3 ← s2.setLastKey e1.file_last_key
      let s4 ← s3.sync
      .ok { e1 with shelf := s4, finalized := true }
    else .ok { e1 with finalized := true }

/-- Resolution of the `log_weight=None, weight=None` default arguments of
`Empirical.add`: an explicit log-weight wins, otherwise `torch.log` of the
weight, otherwise `0`. -/
def resolveLW (plog : ℚ → ℚ) (log_weight : Option ℚ) (weight : Option ℚ) : ℚ :=
  match log_weight, weight with
  | some l, _ => l
  | none, some wt => plog wt
  | none, none => 0

/-- `Empirical.add`: clears the statistics caches, un-finalizes, appends the
log-weight; in persistent mode stores the value under the next integer key
and runs the sync countdown (an implicit `finalize` plus countdown reset
when it reaches zero), in memory appends to the value list. -/
def Emp.add {V : Type} (plog : ℚ → ℚ) (e : Emp V) (value : V)
    (log_weight : Option ℚ) (weight : Option ℚ) : Except PyErr (Emp V) :=
  let e1 := { e with finalized := false, cacheMean := none,
                     cacheVariance := none, cacheMode := none,
                     cacheMin := none, cacheMax := none, cacheEss := none }
  let e2 := { e1 with
      log_weights := e1.log_weights ++ [resolveLW plog log_weight weight] }
  if e2.on_disk then do
    let k := e2.file_last_key + 1
    let sh ← e2.shelf.setVal k value
    let e3 := { e2 with file_last_key := k, shelf := sh,
                        file_sync_countdown := e2.file_sync_countdown - 1 }
    if e3.file_sync_countdown = 0 then do
      let e4 ← e3.finalize
      .ok { e4 with file_sync_countdown := e4.file_sync_timeout }
    else .ok e3
  else .ok { e2 with values := e2.values ++ [value] }

/-- The `log_weights is not None` branch of `Empirical.add_sequence`:
`add(values[i], log_weight=log_weights[i])` for each index; a log-weight
sequence shorter than the value sequence raises `IndexError`, a longer one
has its tail ignored. -/
def Emp.addSeqLW {V : Type} (plog : ℚ → ℚ) :
    Emp V → List V → List ℚ → Except PyErr (Emp V)
  | e, [], _ => .ok e
  | _, _ :: _, [] => .error .indexError
  | e, v :: vs, l :: ls => do
    let e1 ← e.add plog v (some l) none
    e1.addSeqLW plog vs ls

/-- The `weights is not None` branch of `Empirical.add_sequence`. -/
def Emp.addSeqW {V : Type} (plog : ℚ → ℚ) :
    Emp V → List V → List ℚ → Except PyErr (Emp V)
  | e, [], _ => .ok e
  | _, _ :: _, [] => .error .indexError
  | e, v :: vs, w :: wsr => do
    let e1 ← e.add plog v none (some w)
    e1.addSeqW plog vs wsr

/-- The unweighted branch of `Empirical.add_sequence`. -/
def Emp.addSeqNone {V : Type} (plog : ℚ → ℚ) :
    Emp V → List V → Except PyErr (Emp V)
  | e, [] => .ok e
  | e, v :: vs => do
    let e1 ← e.add plog v none none
    e1.addSeqNone plog vs

/-- `Empirical.add_sequence`. -/
def Emp.addSeq {V : Type} (plog : ℚ → ℚ) (e : Emp V) (vals : List V)
    (log_weights : Option (List ℚ)) (weights : Option (List ℚ)) :
    Except PyErr (Emp V) :=
  match log_weights with
  | some lws => e.addSeqLW plog vals lws
  | none =>
    match weights with
    | some wts => e.addSeqW plog vals wts
    | none => e.addSeqNone plog vals

/-- The attribute values `Empirical.__init__` establishes before the
storage-mode branch: not finalized, not closed, no categorical, empty
log-weights, length 0, empty in-memory value list, empty statistics
caches. -/
def baseEmp {V : Type} (name : String) : Emp V :=
  { finalized := false, closedFlag := false, categorical := none,
    log_weights := [], length := 0, on_disk := false, values := [],
    shelf := Shelf.empty, file_last_key := 0, file_sync_timeout := 0,
    file_sync_countdown := 0, name := name, uniform_weights := false,
    cacheMean := none, cacheVariance := none, cacheMode := none,
    cacheMin := none, cacheMax := none, cacheEss := none }

/-- `Empirical.__init__`.  `fileShelf` is the content found at `file_name`
when it is opened (`none` models `file_name=None`, `some Shelf.empty` a
fresh file); an existing weight sequence in the shelf resumes the store.
An initial non-empty value batch is added and immediately finalized. -/
def initEmp {V : Type} (plog : ℚ → ℚ) (values : Option (List V))
    (log_weights : Option (List ℚ)) (weights : Option (List ℚ))
    (fileShelf : Option (Shelf V)) (file_sync_timeout : Int)
    (name : String) : Except PyErr (Emp V) := do
  let base0 : Emp V := baseEmp name
  let base ← match fileShelf with
    | none => pure base0
    | some sh =>
      match sh.metaLogWeights with
      | some lws => do
        let nm := match sh.metaName with
          | some n => n
          | none => name
        let lk ← match sh.metaLastKey with
          | some k => pure k
          | none => Except.error PyErr.keyError
        pure { base0 with on_disk := true, shelf := sh, name := nm,
                          log_weights := lws, file_last_key := lk,
                          length := lws.length,
                          file_sync_timeout := file_sync_timeout,
                          file_sync_countdown := file_sync_timeout }
      | none =>
        pure { base0 with on_disk := true, shelf := sh, file_last_key := -1,
                          file_sync_timeout := file_sync_timeout,
                          file_sync_countdown := file_sync_timeout }
  match values with
  | none => pure base
  | some vs =>
    if 0 < vs.length then do
      let e1 ← base.addSeq plog vs log_weights weights
      e1.finalize
    else pure base

/-- `Empirical.close`: in persistent mode re-runs `finalize` (this happens
before the `_closed` guard is consulted), then closes the shelf once. -/
def Emp.close {V : Type} (e : Emp V) : Except PyErr (Emp V) :=
  if e.on_disk then do
    let e1 ← e.finalize
    if e1.closedFlag then .ok e1
    else do
      let sh ← e1.shelf.closeShelf
      .ok { e1 with shelf := sh, closedFlag := true }
  else .ok e

/-- `Empirical._get_value` for a nonnegative index (the only form used by
the library's own loops): a shelf read in persistent mode, a list index in
memory. -/
def Emp.getValueAt {V : Type} (e : Emp V) (i : Nat) : Except PyErr V :=
  if e.on_disk then e.shelf.getVal (Int.ofNat i)
  else
    match e.values.get? i with
    | some v => .ok v
    | none => .error .indexError

/-- `Empirical._get_log_weight`: `self._categorical.logits[index]`; raises
if the categorical has not been built yet.  (Modelled from the spec:
`Categorical.logits` is a copy of the log-weight sequence at finalize.) -/
def Emp.getLogWeight {V : Type} (e : Emp V) (i : Nat) : Except PyErr ℚ :=
  match e.categorical with
  | none => .error .attributeError
  | some logits =>
    match logits.get? i with
    | some w => .ok w
    | none => .error .indexError

/-- `Empirical.get_values`. -/
def Emp.getValues {V : Type} (e : Emp V) : Except PyErr (List V) :=
  if e.finalized = false then .error .runtimeNotFinalized
  else if e.on_disk then
    (List.range e.length).mapM fun i => e.shelf.getVal (Int.ofNat i)
  else .ok e.values

/-- The element-replay loop of the persistent branches of `Empirical.copy`
and `Empirical.combine`: `ret.add(value=src._shelf[str(i)],
log_weight=src._log_weights[i])` over the given indices. -/
def copyDiskLoop {V : Type} (plog : ℚ → ℚ) (src : Emp V) :
    Emp V → List Nat → Except PyErr (Emp V)
  | ret, [] => .ok ret
  | ret, i :: is => do
    let v ← src.shelf.getVal (Int.ofNat i)
    let lwi ← match src.log_weights.get? i with
      | some l => Except.ok l
      | none => Except.error PyErr.indexError
    let ret1 ← ret.add plog v (some lwi) none
    copyDiskLoop plog src ret1 is

/-- `Empirical.copy`.  `target = none` models `file_name=None`.  The
in-memory-to-in-memory branch is `copy.copy(self)`, a shallow copy; in this
value-semantics state model it is the unchanged state (the aliasing of the
list attributes it creates is modelled by the `PyStore`/`EmpRef` reference
model below). -/
def Emp.copy {V : Type} (plog : ℚ → ℚ) (e : Emp V)
    (target : Option (Shelf V)) : Except PyErr (Emp V) :=
  if e.finalized = false then .error .runtimeNotFinalized
  else if e.on_disk then
    match target with
    | none => do
      let vs ← e.getValues
      initEmp plog (some vs) (some e.log_weights) none none 1000 ("Empirical")
    | some sh => do
      let ret ← initEmp plog none none none (some sh) 1000 ("Empirical")
      let ret1 ← copyDiskLoop plog e ret (List.range e.length)
      ret1.finalize
  else
    match target with
    | none => .ok e
    | some sh =>
      initEmp plog (some e.values) (some e.log_weights) none (some sh) 1000
        ("Empirical")

/-- The accumulation loop of `Empirical.filter`: for each index, read the
value; if the predicate holds, also read its log-weight (through the
categorical) and keep the pair. -/
def filterLoop {V : Type} (e : Emp V) (p : V → Bool) :
    List Nat → List (V × ℚ) → Except PyErr (List (V × ℚ))
  | [], acc => .ok acc
  | i :: is, acc => do
    let v ← e.getValueAt i
    if p v then do
      let w ← e.getLogWeight i
      filterLoop e p is (acc ++ [(v, w)])
    else filterLoop e p is acc

/-- `Empirical.filter`: requires a finalized source; returns the source
object itself when it is empty, otherwise builds a new in-memory
`Empirical` from the retained values and their (non-renormalized)
log-weights.  The retained value and log-weight sequences are modelled as
one paired list, projected when the new collection is constructed. -/
def Emp.filter {V : Type} (plog : ℚ → ℚ) (e : Emp V) (p : V → Bool) :
    Except PyErr (Emp V) :=
  if e.finalized = false then .error .runtimeNotFinalized
  else if e.length = 0 then .ok e
  else do
    let pairs ← filterLoop e p (List.range e.length) []
    initEmp plog (some (pairs.map Prod.fst)) (some (pairs.map Prod.snd))
      none none 1000 ("Empirical")

/-- `Empirical.sample` restricted to the paths the claims exercise: the
finalize check followed by `_get_value(index)`, where `index` is the draw
of `random.randint` (uniform fast path) or of the categorical distribution;
the drawn index is supplied as the argument `draw` (an oracle for the
random number generator). -/
def Emp.sample {V : Type} (e : Emp V) (draw : Nat) : Except PyErr V :=
  if e.finalized = false then .error .runtimeNotFinalized
  else e.getValueAt draw

/-- `Empirical.resample`: `Empirical(values=[map_func(self.sample()) for i
in range(num_samples)])`; the i-th random draw picks index `pick i`. -/
def Emp.resample {V : Type} (plog : ℚ → ℚ) (e : Emp V) (num_samples : Nat)
    (pick : Nat → Nat) (map_func : V → V) : Except PyErr (Emp V) := do
  let vals ← (List.range num_samples).mapM fun i => do
    let v ← e.sample (pick i)
    pure (map_func v)
  initEmp plog (some vals) none none none 1000 ("Empirical")

/-- `self._categorical.probs` - soft-max of the logits captured at
finalize, with the soft-max itself kept abstract as `psoftmax`.  Raises if
the categorical has not been built. -/
def Emp.probs {V : Type} (psoftmax : List ℚ → List ℚ) (e : Emp V) :
    Except PyErr (List ℚ) :=
  match e.categorical with
  | none => .error .attributeError
  | some logits => .ok (psoftmax logits)

/-- `Empirical.expectation` (numeric values): the finalize check; the
uniform fast path `sum(map(func, values)) / length` in memory; otherwise
the probability-weighted accumulation over all indices. -/
def Emp.expectation (psoftmax : List ℚ → List ℚ) (e : Emp ℚ) (f : ℚ → ℚ) :
    Except PyErr ℚ :=
  if e.finalized = false then .error .runtimeNotFinalized
  else if e.on_disk then
    (List.range e.length).foldlM
      (fun acc i => do
        let v ← e.shelf.getVal (Int.ofNat i)
        let ps ← e.probs psoftmax
        let p ← match ps.get? i with
          | some p => Except.ok p
          | none => Except.error PyErr.indexError
        pure (acc + f v * p)) 0
  else if e.uniform_weights then
    if e.length = 0 then .error .zeroDivisionError
    else .ok ((e.values.map f).sum / (e.length : ℚ))
  else
    (List.range e.length).foldlM
      (fun acc i => do
        let v ← match e.values.get? i with
          | some v => Except.ok v
          | none => Except.error PyErr.indexError
        let ps ← e.probs psoftmax
        let p ← match ps.get? i with
          | some p => Except.ok p
          | none => Except.error PyErr.indexError
        pure (acc + f v * p)) 0

/-- The `mean` property: cached value if present, otherwise
`expectation(identity)`.  (The write-back of the computed value into the
cache slot is elided; only the returned value / error is observed.) -/
def Emp.mean (psoftmax : List ℚ → List ℚ) (e : Emp ℚ) : Except PyErr ℚ :=
  match e.cacheMean with
  | some m => .ok m
  | none => e.expectation psoftmax id

/-- The `variance` property: cached value if present, otherwise
`expectation((x - mean)^2)`. -/
def Emp.variance (psoftmax : List ℚ → List ℚ) (e : Emp ℚ) :
    Except PyErr ℚ :=
  match e.cacheVariance with
  | some v => .ok v
  | none => do
    let m ← e.mean psoftmax
    e.expectation psoftmax fun x => (x - m) ^ 2

/-- Index of the first maximal element, as returned by
`torch.max(tensor, -1)`; an empty sequence raises. -/
def argmaxGo : List ℚ → Nat → Nat → ℚ → Nat
  | [], _, best, _ => best
  | y :: ys, i, best, bv =>
    if bv < y then argmaxGo ys (i + 1) i y else argmaxGo ys (i + 1) best bv

/-- Index of the maximum log-weight (`IndexError` on an empty sequence). -/
def argmaxIdx (l : List ℚ) : Except PyErr Nat :=
  match l with
  | [] => .error .indexError
  | x :: xs => .ok (argmaxGo xs 1 0 x)

/-- The `mode` property: finalize check first, then the cached value or the
value at the index of the maximum log-weight.  (The uniform-weights console
warning has no state effect and is not modelled.) -/
def Emp.mode {V : Type} (e : Emp V) : Except PyErr V :=
  if e.finalized = false then .error .runtimeNotFinalized
  else
    match e.cacheMode with
    | some m => .ok m
    | none => do
      let idx ← argmaxIdx e.log_weights
      e.getValueAt idx

/-- Insertion into a sorted list (ascending), used to model Python's
`sorted`. -/
def insSorted (x : ℚ) : List ℚ → List ℚ
  | [] => [x]
  | y :: ys => if x ≤ y then x :: y :: ys else y :: insSorted x ys

/-- Insertion sort, modelling `sorted(...)`. -/
def sortAsc : List ℚ → List ℚ
  | [] => []
  | x :: xs => insSorted x (sortAsc xs)

/-- `Empirical._find_min_max`: everything inside the `try` block - reading
the values, coercing each to a scalar via `pfloat` (`float(v)`; `none`
models a failing coercion), sorting, and taking the first and last
element.  Any failure inside the block is converted by the bare `except`
into the blanket `RuntimeError`. -/
def Emp.findMinMax {V : Type} (pfloat : V → Option ℚ) (e : Emp V) :
    Except PyErr (ℚ × ℚ) :=
  let inner : Except PyErr (ℚ × ℚ) := do
    let vs ← e.getValues
    let fs ← vs.mapM fun v =>
      match pfloat v with
      | some q => Except.ok q
      | none => Except.error PyErr.typeErrorNotScalar
    let s := sortAsc fs
    match s with
    | [] => Except.error PyErr.indexError
    | x :: xs =>
      match (x :: xs).getLast? with
      | some y => Except.ok (x, y)
      | none => Except.error PyErr.indexError
  match inner with
  | .ok r => .ok r
  | .error _ => .error .runtimeCannotMinMax

/-- The `min` property: cached value or `_find_min_max`. -/
def Emp.min {V : Type} (pfloat : V → Option ℚ) (e : Emp V) :
    Except PyErr ℚ :=
  match e.cacheMin with
  | some m => .ok m
  | none => do
    let r ← e.findMinMax pfloat
    .ok r.1

/-- The `max` property: cached value or `_find_min_max`. -/
def Emp.max {V : Type} (pfloat : V → Option ℚ) (e : Emp V) :
    Except PyErr ℚ :=
  match e.cacheMax with
  | some m => .ok m
  | none => do
    let r ← e.findMinMax pfloat
    .ok r.2

/-- The `effective_sample_size` property: finalize check first, then the
cached value or `1 / sum(probs^2)`. -/
def Emp.effective_sample_size {V : Type} (psoftmax : List ℚ → List ℚ)
    (e : Emp V) : Except PyErr ℚ :=
  if e.finalized = false then .error .runtimeNotFinalized
  else
    match e.cacheEss with
    | some s => .ok s
    | none => do
      let ps ← e.probs psoftmax
      .ok (1 / (ps.map fun p => p ^ 2).sum)

/-- An element of the list passed to the static `Empirical.combine`:
either an `Empirical` instance or some other Python object.  A non-Empirical
object may or may not expose an `_on_disk` attribute (`od`); reading a
missing attribute raises `AttributeError`. -/
inductive CombArg (V : Type) where
  | emp (e : Emp V)
  | other (od : Option Bool)

/-- The `dist._on_disk` attribute access. -/
def CombArg.getOnDisk {V : Type} : CombArg V → Except PyErr Bool
  | .emp e => .ok e.on_disk
  | .other (some b) => .ok b
  | .other none => .error .attributeError

/-- The `isinstance(dist, Empirical)` test. -/
def CombArg.isEmp {V : Type} : CombArg V → Bool
  | .emp _ => true
  | .other _ => false

/-- The `_on_disk` value an all-Empirical argument list exposes (aid for
stating the mode-mismatch condition; `false` for non-Empirical objects). -/
def CombArg.onDiskB {V : Type} : CombArg V → Bool
  | .emp e => e.on_disk
  | .other _ => false

/-- The validation loop at the head of `Empirical.combine`: for each input,
the storage-mode comparison comes first, then the `isinstance` check. -/
def combineCheck {V : Type} (on_disk : Bool) :
    List (CombArg V) → Except PyErr Unit
  | [] => .ok ()
  | d :: ds => do
    let od ← d.getOnDisk
    if od ≠ on_disk then Except.error PyErr.runtimeMismatchedMode
    else if d.isEmp = false then Except.error PyErr.typeErrorNotEmpirical
    else combineCheck on_disk ds

/-- The concatenation loop of the in-memory branch of `Empirical.combine`:
every input must have the first input's length; values and log-weights are
concatenated in input order. -/
def combineMemLoop {V : Type} (len0 : Nat) :
    List (Emp V) → List V × List ℚ → Except PyErr (List V × List ℚ)
  | [], acc => .ok acc
  | d :: ds, acc =>
    if d.length ≠ len0 then Except.error PyErr.runtimeLengthMismatch
    else combineMemLoop len0 ds (acc.1 ++ d.values, acc.2 ++ d.log_weights)

/-- The replay loop of the persistent branch of `Empirical.combine`. -/
def combineDiskLoop {V : Type} (plog : ℚ → ℚ) :
    List (Emp V) → Emp V → Except PyErr (Emp V)
  | [], ret => .ok ret
  | d :: ds, ret => do
    let ret1 ← copyDiskLoop plog d ret (List.range d.length)
    combineDiskLoop plog ds ret1

/-- The static `Empirical.combine(empirical_distributions, file_name)`:
reads `_on_disk` of the first input, validates every input (mode match,
then `isinstance`), then concatenates in memory or replays into a fresh
persistent collection (which requires a target file). -/
def combine {V : Type} (plog : ℚ → ℚ) (args : List (CombArg V))
    (target : Option (Shelf V)) : Except PyErr (Emp V) := do
  let first ← match args with
    | [] => Except.error PyErr.indexError
    | a :: _ => Except.ok a
  let on_disk ← first.getOnDisk
  combineCheck on_disk args
  let dists := args.filterMap fun a =>
    match a with
    | .emp d => some d
    | .other _ => none
  if on_disk then
    match target with
    | none => Except.error PyErr.runtimeMissingFileName
    | some sh => do
      let ret ← initEmp plog none none none (some sh) 1000 ("Empirical")
      let ret1 ← combineDiskLoop plog dists ret
      ret1.finalize
  else do
    let len0 ← match dists with
      | [] => Except.error PyErr.indexError
      | d :: _ => Except.ok d.length
    let acc ← combineMemLoop len0 dists ([], [])
    initEmp plog (some acc.1) (some acc.2) none target 1000 ("Empirical")

/-
Reference model for the shallow copy of an in-memory `Empirical`.

`copy.copy(self)` creates a new object whose attributes are the same
references as the original's.  Immutable attributes (booleans, ints, the
name string) thereafter behave per-object, but the two mutable list
attributes `_values` and `_log_weights` remain the same list objects.  To
make that aliasing observable, the lists live in an explicit store and the
object holds indices into it.
-/

/-- The heap of Python list objects: value lists and log-weight lists. -/
structure PyStore (V : Type) where
  valLists : List (List V)
  lwLists : List (List ℚ)
deriving DecidableEq

/-- An in-memory `Empirical` object in the reference model: its `_values`
and `_log_weights` attributes are references (indices) into the store. -/
structure EmpRef where
  valuesRef : Nat
  lwRef : Nat
  finalized : Bool
  length : Nat
  name : String
  cacheMean : Option ℚ
deriving DecidableEq

/-- Append `x` to the list object at index `i` of the heap. -/
def heapAppend {α : Type} (ls : List (List α)) (i : Nat) (x : α) :
    List (List α) :=
  match ls.get? i with
  | some l => ls.set i (l ++ [x])
  | none => ls

/-- The in-memory branch of `Empirical.copy` with `file_name=None`:
`_check_finalized` then `copy.copy(self)`.  The shallow copy is the same
record - in particular it holds the same two list references. -/
def EmpRef.copyShallow (e : EmpRef) : Except PyErr EmpRef :=
  if e.finalized = false then .error .runtimeNotFinalized
  else .ok e

/-- `Empirical.add` in the reference model (in-memory, explicit
log-weight): appends through the references and un-finalizes / clears the
cache of the object the method is called on. -/
def EmpRef.add {V : Type} (s : PyStore V) (e : EmpRef) (v : V) (lw : ℚ) :
    PyStore V × EmpRef :=
  ({ valLists := heapAppend s.valLists e.valuesRef v,
     lwLists := heapAppend s.lwLists e.lwRef lw },
   { e with finalized := false, cacheMean := none })

/-- `Empirical.get_values` in the reference model. -/
def EmpRef.getValues {V : Type} (s : PyStore V) (e : EmpRef) :
    Except PyErr (List V) :=
  if e.finalized = false then .error .runtimeNotFinalized
  else
    match s.valLists.get? e.valuesRef with
    | some l => .ok l
    | none => .error .attributeError

/-- The log-weight list of an object in the reference model. -/
def EmpRef.lwList {V : Type} (s : PyStore V) (e : EmpRef) :
    Option (List ℚ) :=
  s.lwLists.get? e.lwRef

/-! Helper lemmas about the individual operations. -/

/-- `add` on an in-memory collection never fails and appends one value and
one log-weight while clearing the caches and the finalized flag. -/
theorem add_mem_eq {V : Type} (plog : ℚ → ℚ) (e : Emp V) (v : V)
    (lwo wo : Option ℚ) (hd : e.on_disk = false) :
    e.add plog v lwo wo =
      .ok { e with finalized := false, cacheMean := none,
                   cacheVariance := none, cacheMode := none,
                   cacheMin := none, cacheMax := none, cacheEss := none,
                   log_weights := e.log_weights ++ [resolveLW plog lwo wo],
                   values := e.values ++ [v] } := by
  simp only [Emp.add, hd]
  rfl

/-- `finalize` on an in-memory collection with non-empty log-weights. -/
theorem finalize_mem_eq {V : Type} (e : Emp V) (w : ℚ) (ws : List ℚ)
    (hd : e.on_disk = false) (hlw : e.log_weights = w :: ws) :
    e.finalize =
      .ok { e with categorical := some (w :: ws),
                   uniform_weights := (w :: ws).all fun x => decide (x = w),
                   length := (w :: ws).length,
                   finalized := true } := by
  simp only [Emp.finalize, hlw, hd]
  rfl

/-- `finalize` on an empty collection raises `IndexError` (from
`logits[0]`): an empty collection can never become finalized. -/
theorem finalize_empty_eq {V : Type} (e : Emp V)
    (hlw : e.log_weights = []) : e.finalize = .error .indexError := by
  simp only [Emp.finalize, hlw]

/-- Reduction of a `do` bind over a successful `Except` step. -/
theorem bindOk {ε α β : Type} (x : α) (f : α → Except ε β) :
    (do
      let y ← Except.ok (ε := ε) x
      f y) = f x := rfl

/-- Effect of the explicit-log-weights add loop on an in-memory
collection: all pairs are appended in order, the caches are cleared and
the collection is left un-finalized. -/
theorem addSeqLW_mem_cons {V : Type} (plog : ℚ → ℚ) :
    ∀ (vs : List V) (v : V) (ls : List ℚ) (l : ℚ) (e : Emp V),
    e.on_disk = false → vs.length ≤ ls.length →
    e.addSeqLW plog (v :: vs) (l :: ls) =
      .ok { e with finalized := false, cacheMean := none,
                   cacheVariance := none, cacheMode := none,
                   cacheMin := none, cacheMax := none, cacheEss := none,
                   log_weights := e.log_weights ++ (l :: ls.take vs.length),
                   values := e.values ++ (v :: vs) } := by
  intro vs
  induction vs with
  | nil =>
    intro v ls l e hd _
    simp only [Emp.addSeqLW, add_mem_eq plog e v (some l) none hd, bindOk,
      List.take_zero]
    rfl
  | cons v' vs' ih =>
    intro v ls l e hd hlen
    match ls with
    | [] => simp at hlen
    | l' :: ls' =>
      have hlen' : vs'.length ≤ ls'.length := by
        simpa using Nat.le_of_succ_le_succ (by simpa using hlen)
      rw [show Emp.addSeqLW plog e (v :: v' :: vs') (l :: l' :: ls') =
            (do
              let e1 ← e.add plog v (some l) none
              Emp.addSeqLW plog e1 (v' :: vs') (l' :: ls')) from rfl,
        add_mem_eq plog e v (some l) none hd, bindOk]
      refine Eq.trans (ih v' ls' l' _ ?_ hlen') ?_
      · exact hd
      · simp [List.append_assoc, List.take_succ_cons, resolveLW]

/-- Effect of the unweighted add loop on an in-memory collection: every
appended log-weight is `0`. -/
theorem addSeqNone_mem_cons {V : Type} (plog : ℚ → ℚ) :
    ∀ (vs : List V) (v : V) (e : Emp V), e.on_disk = false →
    e.addSeqNone plog (v :: vs) =
      .ok { e with finalized := false, cacheMean := none,
                   cacheVariance := none, cacheMode := none,
                   cacheMin := none, cacheMax := none, cacheEss := none,
                   log_weights :=
                     e.log_weights ++ List.replicate (vs.length + 1) 0,
                   values := e.values ++ (v :: vs) } := by
  intro vs
  induction vs with
  | nil =>
    intro v e hd
    simp only [Emp.addSeqNone, add_mem_eq plog e v none none hd, bindOk]
    rfl
  | cons v' vs' ih =>
    intro v e hd
    rw [show Emp.addSeqNone plog e (v :: v' :: vs') =
          (do
            let e1 ← e.add plog v none none
            Emp.addSeqNone plog e1 (v' :: vs')) from rfl,
      add_mem_eq plog e v none none hd, bindOk]
    refine Eq.trans (ih v' _ ?_) ?_
    · exact hd
    · simp [List.append_assoc, resolveLW, List.replicate_succ]

/-- `Empirical(values=[...], log_weights=[...])` for a non-empty value
batch: the constructed collection holds the values, the (truncated)
log-weight sequence, and is finalized. -/
theorem initMem_lw_eq {V : Type} (plog : ℚ → ℚ) (v : V) (vs : List V)
    (l : ℚ) (ls : List ℚ) (t : Int) (nm : String)
    (hlen : vs.length ≤ ls.length) :
    initEmp plog (some (v :: vs)) (some (l :: ls)) none none t nm =
      .ok { finalized := true, closedFlag := false,
            categorical := some (l :: ls.take vs.length),
            log_weights := l :: ls.take vs.length,
            length := vs.length + 1, on_disk := false, values := v :: vs,
            shelf := Shelf.empty, file_last_key := 0,
            file_sync_timeout := 0, file_sync_countdown := 0, name := nm,
            uniform_weights :=
              (l :: ls.take vs.length).all fun x => decide (x = l),
            cacheMean := none, cacheVariance := none, cacheMode := none,
            cacheMin := none, cacheMax := none, cacheEss := none } := by
  have hstep : initEmp plog (some (v :: vs)) (some (l :: ls)) none none t nm =
      (do
        let e1 ← (baseEmp nm : Emp V).addSeqLW plog (v :: vs) (l :: ls)
        e1.finalize) := by
    unfold initEmp
    simp [Emp.addSeq]
  rw [hstep, addSeqLW_mem_cons plog vs v ls l (baseEmp nm) rfl hlen, bindOk]
  rw [finalize_mem_eq _ l (ls.take vs.length) rfl rfl]
  simp [baseEmp, List.length_take, Nat.min_eq_left hlen]

/-- `Empirical(values=[...])` (no weights) for a non-empty value batch:
all log-weights are `0`, the collection is finalized and flagged
uniform. -/
theorem initMem_none_eq {V : Type} (plog : ℚ → ℚ) (v : V) (vs : List V)
    (t : Int) (nm : String) :
    initEmp plog (some (v :: vs)) none none none t nm =
      .ok { finalized := true, closedFlag := false,
            categorical := some (List.replicate (vs.length + 1) 0),
            log_weights := List.replicate (vs.length + 1) 0,
            length := vs.length + 1, on_disk := false, values := v :: vs,
            shelf := Shelf.empty, file_last_key := 0,
            file_sync_timeout := 0, file_sync_countdown := 0, name := nm,
            uniform_weights := true,
            cacheMean := none, cacheVariance := none, cacheMode := none,
            cacheMin := none, cacheMax := none, cacheEss := none } := by
  have hstep : initEmp plog (some (v :: vs)) none none none t nm =
      (do
        let e1 ← (baseEmp nm : Emp V).addSeqNone plog (v :: vs)
        e1.finalize) := by
    unfold initEmp
    simp [Emp.addSeq]
  rw [hstep, addSeqNone_mem_cons plog vs v (baseEmp nm) rfl, bindOk]
  rw [finalize_mem_eq _ 0 (List.replicate vs.length 0)
    rfl (by simp [baseEmp, List.replicate_succ])]
  simp [baseEmp, List.all_eq_true, List.mem_replicate, List.replicate_succ]

/-- `Empirical(values=[])`: an empty explicit batch is not added and not
finalized; the result is the bare unfinalized state. -/
theorem initMem_nil_eq {V : Type} (plog : ℚ → ℚ)
    (log_weights weights : Option (List ℚ)) (t : Int) (nm : String) :
    initEmp plog (some ([] : List V)) log_weights weights none t nm =
      .ok (baseEmp nm) := rfl

/-- `finalize` on a persistent collection whose shelf is open: metadata is
written, the shelf syncs once, and the integer-keyed value entries are
untouched. -/
theorem finalize_disk_eq {V : Type} (e : Emp V) (w : ℚ) (ws : List ℚ)
    (hd : e.on_disk = true) (hlw : e.log_weights = w :: ws)
    (hsh : e.shelf.closed = false) :
    e.finalize =
      .ok { e with categorical := some (w :: ws),
                   uniform_weights := (w :: ws).all fun x => decide (x = w),
                   length := (w :: ws).length, finalized := true,
                   shelf := { e.shelf with
                     metaName := some e.name,
                     metaLogWeights := some (w :: ws),
                     metaLastKey := some e.file_last_key,
                     syncCount := e.shelf.syncCount + 1 } } := by
  simp [Emp.finalize, hlw, hd, Shelf.setName, Shelf.setLogWeights,
    Shelf.setLastKey, Shelf.sync, hsh]
  rfl

/-- `finalize` on a persistent collection whose shelf has been closed
raises the closed-shelf `ValueError` at the first metadata write. -/
theorem finalize_disk_closed_eq {V : Type} (e : Emp V) (w : ℚ)
    (ws : List ℚ) (hd : e.on_disk = true) (hlw : e.log_weights = w :: ws)
    (hsh : e.shelf.closed = true) :
    e.finalize = .error .valueErrorClosedShelf := by
  simp only [Emp.finalize, hlw, hd, Shelf.setName, hsh]
  rfl

/-- `add` on a persistent collection when the sync countdown does not
reach zero: the value is stored under the next key, the countdown is
decremented, no finalize/sync happens. -/
theorem add_disk_nosync_eq {V : Type} (plog : ℚ → ℚ) (e : Emp V) (v : V)
    (lwo wo : Option ℚ) (hd : e.on_disk = true)
    (hsh : e.shelf.closed = false)
    (hcd : ¬ e.file_sync_countdown - 1 = 0) :
    e.add plog v lwo wo =
      .ok { e with finalized := false, cacheMean := none,
                   cacheVariance := none, cacheMode := none,
                   cacheMin := none, cacheMax := none, cacheEss := none,
                   log_weights :=
                     e.log_weights ++ [resolveLW plog lwo wo],
                   shelf := { e.shelf with
                     items := (e.file_last_key + 1, v) :: e.shelf.items },
                   file_last_key := e.file_last_key + 1,
                   file_sync_countdown := e.file_sync_countdown - 1 } := by
  simp only [Emp.add, hd, Shelf.setVal, hsh, Bool.false_eq_true,
    if_false, bindOk]
  simp only [if_neg hcd]
  rfl

/-- `add` on a persistent collection when the sync countdown reaches
zero: the value is stored, an implicit `finalize` runs (one sync, metadata
written) and the countdown is reset to the configured timeout. -/
theorem add_disk_sync {V : Type} (plog : ℚ → ℚ) (e : Emp V) (v : V)
    (lwo wo : Option ℚ) (hd : e.on_disk = true)
    (hsh : e.shelf.closed = false)
    (hcd : e.file_sync_countdown - 1 = 0) :
    ∃ e', e.add plog v lwo wo = .ok e' ∧ e'.finalized = true ∧
      e'.file_sync_countdown = e.file_sync_timeout ∧
      e'.shelf.syncCount = e.shelf.syncCount + 1 ∧
      e'.shelf.items = (e.file_last_key + 1, v) :: e.shelf.items ∧
      e'.log_weights = e.log_weights ++ [resolveLW plog lwo wo] ∧
      e'.shelf.closed = false ∧ e'.on_disk = true ∧
      e'.length = e.log_weights.length + 1 ∧
      e'.file_last_key = e.file_last_key + 1 ∧
      e'.file_sync_timeout = e.file_sync_timeout ∧
      e'.values = e.values ∧ e'.name = e.name ∧
      e'.closedFlag = e.closedFlag := by
  rcases hx : e.log_weights ++ [resolveLW plog lwo wo] with _ | ⟨w, ws⟩
  · simp at hx
  · have hstep : e.add plog v lwo wo =
        (do
          let e4 ← Emp.finalize
            { e with finalized := false, cacheMean := none,
                     cacheVariance := none, cacheMode := none,
                     cacheMin := none, cacheMax := none, cacheEss := none,
                     log_weights :=
                       e.log_weights ++ [resolveLW plog lwo wo],
                     shelf := { e.shelf with
                       items := (e.file_last_key + 1, v) :: e.shelf.items },
                     file_last_key := e.file_last_key + 1,
                     file_sync_countdown := e.file_sync_countdown - 1 }
          Except.ok { e4 with file_sync_countdown := e4.file_sync_timeout }) := by
      simp only [Emp.add, hd, Shelf.setVal, hsh, Bool.false_eq_true,
        if_false, bindOk]
      simp only [if_pos hcd]
      rfl
    have hfin := finalize_disk_eq
      { e with finalized := false, cacheMean := none,
               cacheVariance := none, cacheMode := none,
               cacheMin := none, cacheMax := none, cacheEss := none,
               log_weights := e.log_weights ++ [resolveLW plog lwo wo],
               shelf := { e.shelf with
                 items := (e.file_last_key + 1, v) :: e.shelf.items },
               file_last_key := e.file_last_key + 1,
               file_sync_countdown := e.file_sync_countdown - 1 }
      w ws hd hx hsh
    rw [hstep, hfin, bindOk]
    refine ⟨_, rfl, ?_⟩
    have hlen2 : ws.length = e.log_weights.length := by
      have h := congrArg List.length hx
      simp at h
      omega
    simp [← hx, hlen2]
    exact ⟨hsh, hd⟩

/-- The check `torch.eq(logits, logits[0]).all()` over a non-empty
sequence holds exactly when all elements are pairwise equal. -/
theorem allEqHead_iff (w : ℚ) (ws : List ℚ) :
    ((w :: ws).all fun x => decide (x = w)) = true ↔
      ∀ x ∈ w :: ws, ∀ y ∈ w :: ws, x = y := by
  simp only [List.all_eq_true, decide_eq_true_eq]
  constructor
  · intro h x hx y hy
    rw [h x hx, h y hy]
  · intro h x hx
    exact h x hx w (List.mem_cons_self w ws)

/-! Concrete states and parameter instantiations used by the witnesses. -/

/-- A concrete instantiation of the abstract `torch.log` parameter. -/
def qlogZero : ℚ → ℚ := fun _ => 0

/-- A concrete instantiation of the abstract soft-max parameter. -/
def softmaxId : List ℚ → List ℚ := fun l => l

/-- A concrete un-finalized in-memory collection with two values and two
distinct log-weights. -/
def wEmpU : Emp ℚ :=
  { finalized := false, closedFlag := false, categorical := none,
    log_weights := [0, 1], length := 0, on_disk := false, values := [3, 4],
    shelf := Shelf.empty, file_last_key := 0, file_sync_timeout := 0,
    file_sync_countdown := 0, name := "E", uniform_weights := false,
    cacheMean := none, cacheVariance := none, cacheMode := none,
    cacheMin := none, cacheMax := none, cacheEss := none }

/-- The state `wEmpU.finalize` produces. -/
def wEmpUFin : Emp ℚ :=
  { wEmpU with categorical := some [0, 1], uniform_weights := false,
               length := 2, finalized := true }

/-! Claim theorems. -/

/-- C6: for every collection successfully finalized (hence non-empty), the
uniform-weights flag is true if and only if all log-weights are exactly
equal to each other. -/
theorem claim_C6_uniform_iff (e e' : Emp ℚ)
    (h : e.finalize = Except.ok e') :
    e'.uniform_weights = true ↔
      ∀ x ∈ e'.log_weights, ∀ y ∈ e'.log_weights, x = y := by
  rcases hlw : e.log_weights with _ | ⟨w, ws⟩
  · rw [finalize_empty_eq e hlw] at h
    cases h
  · cases hd : e.on_disk
    · rw [finalize_mem_eq e w ws hd hlw] at h
      injection h with h'
      subst h'
      simpa [hlw] using allEqHead_iff w ws
    · cases hsh : e.shelf.closed
      · rw [finalize_disk_eq e w ws hd hlw hsh] at h
        injection h with h'
        subst h'
        simpa [hlw] using allEqHead_iff w ws
      · rw [finalize_disk_closed_eq e w ws hd hlw hsh] at h
        cases h

/-- C6 witness: the theorem applied to a concrete two-element collection
with distinct log-weights. -/
theorem claim_C6_witness :
    wEmpU.finalize = Except.ok wEmpUFin ∧
      (wEmpUFin.uniform_weights = true ↔
        ∀ x ∈ wEmpUFin.log_weights, ∀ y ∈ wEmpUFin.log_weights, x = y) :=
  ⟨by decide, claim_C6_uniform_iff wEmpU wEmpUFin (by decide)⟩

/-- C10: `add` never changes the reported length (in memory, and on disk
when the countdown does not trigger the implicit finalize) even though one
more value and one more log-weight are stored, and `finalize` is what
refreshes the length to the stored element count. -/
theorem claim_C10_length_only_at_finalize :
    (∀ (plog : ℚ → ℚ) (e : Emp ℚ) (v : ℚ) (lwo wo : Option ℚ),
      e.on_disk = false →
      ∃ e', e.add plog v lwo wo = Except.ok e' ∧ e'.length = e.length ∧
        e'.values.length = e.values.length + 1 ∧
        e'.log_weights.length = e.log_weights.length + 1 ∧
        e'.finalized = false) ∧
    (∀ (plog : ℚ → ℚ) (e : Emp ℚ) (v : ℚ) (lwo wo : Option ℚ),
      e.on_disk = true → e.shelf.closed = false →
      ¬ e.file_sync_countdown - 1 = 0 →
      ∃ e', e.add plog v lwo wo = Except.ok e' ∧ e'.length = e.length ∧
        e'.shelf.items.length = e.shelf.items.length + 1 ∧
        e'.log_weights.length = e.log_weights.length + 1 ∧
        e'.finalized = false) ∧
    (∀ (e e' : Emp ℚ), e.finalize = Except.ok e' →
      e'.length = e'.log_weights.length) := by
  refine ⟨?_, ?_, ?_⟩
  · intro plog e v lwo wo hd
    exact ⟨_, add_mem_eq plog e v lwo wo hd, rfl, by simp, by simp, rfl⟩
  · intro plog e v lwo wo hd hsh hcd
    exact ⟨_, add_disk_nosync_eq plog e v lwo wo hd hsh hcd, rfl, by simp,
      by simp, rfl⟩
  · intro e e' h
    rcases hlw : e.log_weights with _ | ⟨w, ws⟩
    · rw [finalize_empty_eq e hlw] at h
      cases h
    · cases hd : e.on_disk
      · rw [finalize_mem_eq e w ws hd hlw] at h
        injection h with h'
        subst h'
        simp [hlw]
      · cases hsh : e.shelf.closed
        · rw [finalize_disk_eq e w ws hd hlw hsh] at h
          injection h with h'
          subst h'
          simp [hlw]
        · rw [finalize_disk_closed_eq e w ws hd hlw hsh] at h
          cases h

/-- C10 witness: an in-memory add on a concrete collection leaves the
reported length at its finalize-time value. -/
theorem claim_C10_witness :
    wEmpU.on_disk = false ∧
      ∃ e', wEmpU.add qlogZero 7 none none = Except.ok e' ∧
        e'.length = wEmpU.length ∧
        e'.values.length = wEmpU.values.length + 1 ∧
        e'.log_weights.length = wEmpU.log_weights.length + 1 ∧
        e'.finalized = false :=
  ⟨rfl, claim_C10_length_only_at_finalize.1 qlogZero wEmpU 7 none none rfl⟩

/-- C5, part of the statement: the three-add run on a fresh persistent
collection with `file_sync_timeout=2`, reporting the sync count and the
finalized flag after each add. -/
def syncScenario : Except PyErr (Nat × Bool × Nat × Bool × Nat × Bool) := do
  let e0 ← initEmp qlogZero none none none (some (Shelf.empty : Shelf ℚ)) 2
    ("E")
  let e1 ← e0.add qlogZero 10 (some 0) none
  let e2 ← e1.add qlogZero 20 (some 0) none
  let e3 ← e2.add qlogZero 30 (some 0) none
  pure (e1.shelf.syncCount, e1.finalized, e2.shelf.syncCount, e2.finalized,
    e3.shelf.syncCount, e3.finalized)

/-- C5: on a persistent collection created with `file_sync_timeout = t` the
countdown starts at `t`; each `add` decrements it, runs the implicit
finalize (exactly one sync) and resets the countdown to `t` exactly when
the decremented countdown reaches zero; with `t = 2`, three adds perform
exactly one automatic finalize/sync, after the second add. -/
theorem claim_C5_sync_countdown :
    (∀ (plog : ℚ → ℚ) (sh : Shelf ℚ) (t : Int) (nm : String),
      sh.metaLogWeights = none →
      initEmp plog none none none (some sh) t nm =
        Except.ok ({ baseEmp nm with
          on_disk := true, shelf := sh, file_last_key := -1,
          file_sync_timeout := t, file_sync_countdown := t })) ∧
    (∀ (plog : ℚ → ℚ) (e : Emp ℚ) (v : ℚ) (lwo wo : Option ℚ),
      e.on_disk = true → e.shelf.closed = false →
      (¬ e.file_sync_countdown - 1 = 0 →
        ∃ e', e.add plog v lwo wo = Except.ok e' ∧
          e'.file_sync_countdown = e.file_sync_countdown - 1 ∧
          e'.finalized = false ∧
          e'.shelf.syncCount = e.shelf.syncCount ∧
          e'.file_sync_timeout = e.file_sync_timeout) ∧
      (e.file_sync_countdown - 1 = 0 →
        ∃ e', e.add plog v lwo wo = Except.ok e' ∧ e'.finalized = true ∧
          e'.file_sync_countdown = e.file_sync_timeout ∧
          e'.shelf.syncCount = e.shelf.syncCount + 1 ∧
          e'.file_sync_timeout = e.file_sync_timeout)) ∧
    syncScenario = Except.ok (0, false, 1, true, 1, false) := by
  refine ⟨?_, ?_, by decide⟩
  · intro plog sh t nm hm
    unfold initEmp
    simp [hm]
    rfl
  · intro plog e v lwo wo hd hsh
    constructor
    · intro hcd
      exact ⟨_, add_disk_nosync_eq plog e v lwo wo hd hsh hcd, rfl, rfl,
        rfl, rfl⟩
    · intro hcd
      obtain ⟨e', ha, h1, h2, h3, _, _, _, _, _, _, h4, _, _, _⟩ :=
        add_disk_sync plog e v lwo wo hd hsh hcd
      exact ⟨e', ha, h1, h2, h3, h4⟩

/-- A concrete persistent state (open shelf, countdown about to reach
zero) for the C5 witness. -/
def wEmpDisk1 : Emp ℚ :=
  { finalized := false, closedFlag := false, categorical := none,
    log_weights := [0], length := 0, on_disk := true, values := [],
    shelf := Shelf.empty, file_last_key := 0, file_sync_timeout := 2,
    file_sync_countdown := 1, name := "E", uniform_weights := false,
    cacheMean := none, cacheVariance := none, cacheMode := none,
    cacheMin := none, cacheMax := none, cacheEss := none }

/-- A concrete finalized persistent collection - open shelf holding the
values 6 and 7 under the keys 0 and 1, with uniform log-weights - used by
witnesses that exercise the on-disk read path. -/
def wEmpDiskFin : Emp ℚ :=
  { finalized := true, closedFlag := false, categorical := some [0, 0],
    log_weights := [0, 0], length := 2, on_disk := true, values := [],
    shelf := { items := [(1, 7), (0, 6)], metaName := some "E",
               metaLogWeights := some [0, 0], metaLastKey := some 1,
               closed := false, syncCount := 1 },
    file_last_key := 1, file_sync_timeout := 1000,
    file_sync_countdown := 1000, name := "E", uniform_weights := true,
    cacheMean := none, cacheVariance := none, cacheMode := none,
    cacheMin := none, cacheMax := none, cacheEss := none }

/-- The shelf of `wEmpDiskFin` reads back the stored sequence `[6, 7]`. -/
theorem wEmpDiskFin_reads :
    ∀ i (hi : i < ([6, 7] : List ℚ).length),
      wEmpDiskFin.getValueAt i =
        Except.ok (([6, 7] : List ℚ).get ⟨i, hi⟩) := by
  intro i hi
  have hi2 : i < 2 := by simpa using hi
  interval_cases i
  · show wEmpDiskFin.getValueAt 0 = Except.ok 6
    decide
  · show wEmpDiskFin.getValueAt 1 = Except.ok 7
    decide

/-- C5 witness: the second-conjunct behaviour applied to a concrete
persistent state whose countdown is about to reach zero. -/
theorem claim_C5_witness :
    wEmpDisk1.on_disk = true ∧ wEmpDisk1.shelf.closed = false ∧
      ((¬ wEmpDisk1.file_sync_countdown - 1 = 0 →
        ∃ e', wEmpDisk1.add qlogZero 5 (some 0) none = Except.ok e' ∧
          e'.file_sync_countdown = wEmpDisk1.file_sync_countdown - 1 ∧
          e'.finalized = false ∧
          e'.shelf.syncCount = wEmpDisk1.shelf.syncCount ∧
          e'.file_sync_timeout = wEmpDisk1.file_sync_timeout) ∧
      (wEmpDisk1.file_sync_countdown - 1 = 0 →
        ∃ e', wEmpDisk1.add qlogZero 5 (some 0) none = Except.ok e' ∧
          e'.finalized = true ∧
          e'.file_sync_countdown = wEmpDisk1.file_sync_timeout ∧
          e'.shelf.syncCount = wEmpDisk1.shelf.syncCount + 1 ∧
          e'.file_sync_timeout = wEmpDisk1.file_sync_timeout)) :=
  ⟨rfl, rfl,
    claim_C5_sync_countdown.2.1 qlogZero wEmpDisk1 5 (some 0) none rfl rfl⟩

/-- The first-close run for C2: construct a persistent collection holding
one value, then `close()` it; report whether it succeeded and the final
closed flags. -/
def closeOnceRun : Except PyErr (Bool × Bool) := do
  let e ← initEmp qlogZero (some [(1 : ℚ)]) (some [0]) none
    (some Shelf.empty) 1000 ("E")
  let e1 ← e.close
  pure (e1.closedFlag, e1.shelf.closed)

/-- The double-close run for C2: as `closeOnceRun`, with a second
`close()` call on the result. -/
def closeTwiceRun : Except PyErr (Emp ℚ) := do
  let e ← initEmp qlogZero (some [(1 : ℚ)]) (some [0]) none
    (some Shelf.empty) 1000 ("E")
  let e1 ← e.close
  e1.close

/-- C2: the first `close()` on a persistent collection succeeds and marks
the collection closed, but a second `close()` raises the closed-shelf
`ValueError` instead of being a no-op, because `close` unconditionally
re-runs `finalize` (which writes to the shelf) before consulting the
`_closed` guard. -/
theorem claim_C2_second_close_raises :
    closeOnceRun = Except.ok (true, true) ∧
      closeTwiceRun = Except.error PyErr.valueErrorClosedShelf := by
  constructor
  · decide
  · decide

/-- Reduction of a `do` bind over a failed `Except` step. -/
theorem bindErr {ε α β : Type} (err : ε) (f : α → Except ε β) :
    (do
      let y ← (Except.error err : Except ε α)
      f y) = Except.error err := rfl

/-- Reduction of `Except.bind` over a successful step. -/
theorem exBindOk {ε α β : Type} (x : α) (f : α → Except ε β) :
    Except.bind (Except.ok x) f = f x := rfl

/-- Reduction of `Except.bind` over a failed step. -/
theorem exBindErr {ε α β : Type} (err : ε) (f : α → Except ε β) :
    Except.bind (Except.error err) f = Except.error err := rfl

/-- C9 counterexample: the mean of a freshly constructed zero-length
collection fails with the not-finalized `RuntimeError`, not with the
`EmptyDistribution` error kind the claim names. -/
theorem claim_C9_counterexample :
    (do
      let e ← initEmp qlogZero none none none none 1000 ("Empirical")
      e.mean softmaxId) = Except.error PyErr.runtimeNotFinalized ∧
      (do
        let e ← initEmp (V := ℚ) qlogZero none none none none 1000
          ("Empirical")
        pure e.length) = Except.ok (0 : Nat) ∧
      PyErr.runtimeNotFinalized ≠ PyErr.emptyDistribution := by
  refine ⟨by decide, by decide, by decide⟩

/-- C9 (amended): every statistic of a zero-length (hence never
finalizable, hence unfinalized) collection fails - with the not-finalized
`RuntimeError` for mean, variance, mode and effective sample size, and
with the blanket cannot-compute `RuntimeError` for min and max (whose bare
`except` converts the inner not-finalized error); and `finalize` itself
raises `IndexError` on an empty collection, so no zero-length collection
is ever finalized. -/
theorem claim_C9_empty_stats (psoftmax : List ℚ → List ℚ)
    (pfloat : ℚ → Option ℚ) (e : Emp ℚ) (_hlen : e.length = 0)
    (hfin : e.finalized = false) (hcm : e.cacheMean = none)
    (hcv : e.cacheVariance = none) (hmin : e.cacheMin = none)
    (hmax : e.cacheMax = none) :
    e.mean psoftmax = Except.error PyErr.runtimeNotFinalized ∧
    e.variance psoftmax = Except.error PyErr.runtimeNotFinalized ∧
    e.mode = Except.error PyErr.runtimeNotFinalized ∧
    e.effective_sample_size psoftmax =
      Except.error PyErr.runtimeNotFinalized ∧
    e.min pfloat = Except.error PyErr.runtimeCannotMinMax ∧
    e.max pfloat = Except.error PyErr.runtimeCannotMinMax ∧
    (∀ e0 : Emp ℚ, e0.log_weights = [] →
      e0.finalize = Except.error PyErr.indexError) := by
  have hmean : e.mean psoftmax = Except.error PyErr.runtimeNotFinalized := by
    simp [Emp.mean, hcm, Emp.expectation, hfin]
  refine ⟨hmean, ?_, ?_, ?_, ?_, ?_, fun e0 h0 => finalize_empty_eq e0 h0⟩
  · simp [Emp.variance, hcv, hmean, bindErr]
  · simp [Emp.mode, hfin]
  · simp [Emp.effective_sample_size, hfin]
  · simp [Emp.min, hmin, Emp.findMinMax, Emp.getValues, hfin, bindErr]
  · simp [Emp.max, hmax, Emp.findMinMax, Emp.getValues, hfin, bindErr]

/-- C9 witness: the amended statement applied to the bare empty
collection the constructor produces. -/
theorem claim_C9_witness :
    (baseEmp ("Empirical") : Emp ℚ).length = 0 ∧
    (baseEmp ("Empirical") : Emp ℚ).finalized = false ∧
    ((baseEmp ("Empirical") : Emp ℚ).mean softmaxId =
        Except.error PyErr.runtimeNotFinalized ∧
      (baseEmp ("Empirical") : Emp ℚ).variance softmaxId =
        Except.error PyErr.runtimeNotFinalized ∧
      (baseEmp ("Empirical") : Emp ℚ).mode =
        Except.error PyErr.runtimeNotFinalized ∧
      (baseEmp ("Empirical") : Emp ℚ).effective_sample_size softmaxId =
        Except.error PyErr.runtimeNotFinalized ∧
      (baseEmp ("Empirical") : Emp ℚ).min (fun q => some q) =
        Except.error PyErr.runtimeCannotMinMax ∧
      (baseEmp ("Empirical") : Emp ℚ).max (fun q => some q) =
        Except.error PyErr.runtimeCannotMinMax ∧
      (∀ e0 : Emp ℚ, e0.log_weights = [] →
        e0.finalize = Except.error PyErr.indexError)) :=
  ⟨rfl, rfl,
    claim_C9_empty_stats softmaxId (fun q => some q) (baseEmp ("Empirical"))
      rfl rfl rfl rfl rfl rfl⟩

/-- A monadic map over `Except` succeeds with a list of the same length
when every element succeeds. -/
theorem mapM_ok_exists {α β : Type} (f : α → Except PyErr β) :
    ∀ l : List α, (∀ x ∈ l, ∃ y, f x = Except.ok y) →
      ∃ l', l.mapM f = Except.ok l' ∧ l'.length = l.length := by
  intro l
  induction l with
  | nil => exact fun _ => ⟨[], rfl, rfl⟩
  | cons a as ih =>
    intro h
    obtain ⟨y, hy⟩ := h a (List.mem_cons_self a as)
    obtain ⟨l', hl', hlen⟩ := ih fun x hx => h x (List.mem_cons_of_mem a hx)
    refine ⟨y :: l', ?_, by simp [hlen]⟩
    rw [List.mapM_cons, hy, bindOk, hl', bindOk]
    rfl

/-- C4 counterexample: `resample(0)` on a concrete finalized collection
returns an empty, un-finalized collection that reports `uniform = false`,
whereas the claim requires `uniform = true` for every count `n ≥ 0`. -/
theorem claim_C4_counterexample :
    (do
      let e ← initEmp qlogZero (some [(1 : ℚ)]) (some [0]) none none 1000
        ("Empirical")
      let r ← e.resample qlogZero 0 (fun _ => 0) (fun x => x)
      pure (r.uniform_weights, r.finalized, r.values.length)) =
        Except.ok (false, false, 0) ∧ false ≠ true := by
  refine ⟨by decide, by decide⟩

/-- `_get_value` on an in-memory collection returns the stored value at
any in-range index. -/
theorem getValueAt_mem {V : Type} (e : Emp V) (hd : e.on_disk = false)
    (i : Nat) (hi : i < e.values.length) :
    e.getValueAt i = Except.ok (e.values.get ⟨i, hi⟩) := by
  simp [Emp.getValueAt, hd]
  rw [← List.get?_eq_getElem?, List.get?_eq_get hi]
  rfl

/-- C4 (amended): `resample(n)` on a finalized collection of either
storage mode (with every random draw hitting a readable stored value)
returns exactly `n` values whose log-weights are all zero; for `n ≥ 1`
the result is finalized and reports `uniform = true`, while for `n = 0`
the result is empty, un-finalized and reports `uniform = false`. -/
theorem claim_C4_resample_uniform (plog : ℚ → ℚ) (e : Emp ℚ) (n : Nat)
    (pick : Nat → Nat) (mf : ℚ → ℚ) (hfin : e.finalized = true)
    (hpick : ∀ i, i < n → ∃ v, e.getValueAt (pick i) = Except.ok v) :
    ∃ r, e.resample plog n pick mf = Except.ok r ∧
      r.values.length = n ∧ r.log_weights = List.replicate n 0 ∧
      (0 < n → r.finalized = true ∧ r.uniform_weights = true ∧
        r.length = n) ∧
      (n = 0 → r.finalized = false ∧ r.uniform_weights = false ∧
        r.length = 0) := by
  have hsample : ∀ i ∈ List.range n,
      ∃ y, (do
        let v ← e.sample (pick i)
        pure (mf v)) = Except.ok y := by
    intro i hi
    obtain ⟨v, hv⟩ := hpick i (List.mem_range.mp hi)
    have hs : e.sample (pick i) = Except.ok v := by
      simp [Emp.sample, hfin]
      exact hv
    refine ⟨mf v, ?_⟩
    rw [hs, bindOk]
    rfl
  obtain ⟨vals, hm, hlen⟩ :=
    mapM_ok_exists (fun i => do
      let v ← e.sample (pick i)
      pure (mf v)) (List.range n) hsample
  have hlen' : vals.length = n := by simpa using hlen
  rw [show e.resample plog n pick mf =
        (do
          let vals ← (List.range n).mapM fun i => do
            let v ← e.sample (pick i)
            pure (mf v)
          initEmp plog (some vals) none none none 1000 ("Empirical"))
      from rfl, hm, bindOk]
  match n, vals, hlen' with
  | 0, [], _ =>
    rw [initMem_nil_eq]
    exact ⟨baseEmp ("Empirical"), rfl, rfl, rfl,
      fun h => absurd h (by decide), fun _ => ⟨rfl, rfl, rfl⟩⟩
  | Nat.succ m, v :: vs, hlen' =>
    rw [initMem_none_eq]
    have hv : vs.length = m := by simpa using hlen'
    refine ⟨_, rfl, by simp [hv], by simp [hv], ?_, fun h => nomatch h⟩
    intro _
    exact ⟨rfl, rfl, by simp [hv]⟩

/-- C4 witness: the amended statement at a concrete finalized persistent
collection, `n = 2` and a constant draw oracle reading through the
shelf. -/
theorem claim_C4_witness :
    wEmpDiskFin.finalized = true ∧
      (∀ i, i < 2 →
        ∃ v, wEmpDiskFin.getValueAt ((fun _ : Nat => 0) i) =
          Except.ok v) ∧
      ∃ r, wEmpDiskFin.resample qlogZero 2 (fun _ => 0) (fun x => x) =
          Except.ok r ∧
        r.values.length = 2 ∧ r.log_weights = List.replicate 2 0 ∧
        (0 < 2 → r.finalized = true ∧ r.uniform_weights = true ∧
          r.length = 2) ∧
        (2 = 0 → r.finalized = false ∧ r.uniform_weights = false ∧
          r.length = 0) :=
  ⟨rfl,
    fun _ _ =>
      ⟨6, (by decide : wEmpDiskFin.getValueAt 0 = Except.ok 6)⟩,
    claim_C4_resample_uniform qlogZero wEmpDiskFin 2 (fun _ => 0)
      (fun x => x) rfl
      (fun _ _ =>
        ⟨6, (by decide : wEmpDiskFin.getValueAt 0 = Except.ok 6)⟩)⟩

/-- Reading back an updated slot of a heap. -/
theorem get_set_self {α : Type} :
    ∀ (l : List α) (i : Nat) (x : α), i < l.length →
      (l.set i x).get? i = some x := by
  intro l
  induction l with
  | nil => intro i x h; exact absurd h (Nat.not_lt_zero i)
  | cons a as ih =>
    intro i x h
    cases i with
    | zero => rfl
    | succ j => simpa using ih j x (Nat.lt_of_succ_lt_succ h)

/-- Appending through a reference updates exactly the referenced list. -/
theorem heapAppend_get {α : Type} (ls : List (List α)) (i : Nat) (x : α)
    (cur : List α) (h : ls.get? i = some cur) :
    (heapAppend ls i x).get? i = some (cur ++ [x]) := by
  unfold heapAppend
  rw [h]
  obtain ⟨hlt, _⟩ := List.get?_eq_some.mp h
  exact get_set_self ls i (cur ++ [x]) hlt

/-- The concrete heap for the C7 run: one value list `[1]` and one
log-weight list `[0]`. -/
def wStore : PyStore ℚ := { valLists := [[1]], lwLists := [[0]] }

/-- The concrete finalized in-memory object for the C7 run, referencing
the single list of `wStore`. -/
def wRef : EmpRef :=
  { valuesRef := 0, lwRef := 0, finalized := true, length := 1,
    name := "Empirical", cacheMean := none }

/-- C7 counterexample: `copy()` of an in-memory collection is
`copy.copy(self)`, a shallow copy sharing the `_values`/`_log_weights`
list objects; a subsequent `add` on the copy also mutates the original,
whose `get_values()` changes from `[1]` to `[1, 2]` - the claim requires
it to stay `[1]`. -/
theorem claim_C7_counterexample :
    EmpRef.copyShallow wRef = Except.ok wRef ∧
    EmpRef.getValues wStore wRef = Except.ok [1] ∧
    EmpRef.getValues (EmpRef.add wStore wRef 2 0).1 wRef =
      Except.ok [1, 2] ∧
    ([1, 2] : List ℚ) ≠ [1] := by
  refine ⟨by decide, by decide, by decide, by decide⟩

/-- C7 (amended): the in-memory `copy()` with no target returns a shallow
copy holding the same value-list and log-weight-list references as the
original, so an `add` on the copy appends to the original's stored values
and log-weights as well (and symmetrically); only the mode-switching
copies replay into fresh storage. -/
theorem claim_C7_shallow_copy_aliases (s : PyStore ℚ) (e : EmpRef)
    (v lw : ℚ) (vs ws : List ℚ) (hfin : e.finalized = true)
    (hv : s.valLists.get? e.valuesRef = some vs)
    (hw : s.lwLists.get? e.lwRef = some ws) :
    ∃ c, e.copyShallow = Except.ok c ∧ c.valuesRef = e.valuesRef ∧
      c.lwRef = e.lwRef ∧
      (EmpRef.add s c v lw).1.valLists.get? e.valuesRef =
        some (vs ++ [v]) ∧
      (EmpRef.add s c v lw).1.lwLists.get? e.lwRef = some (ws ++ [lw]) ∧
      EmpRef.getValues (EmpRef.add s c v lw).1 e =
        Except.ok (vs ++ [v]) := by
  refine ⟨e, by simp [EmpRef.copyShallow, hfin], rfl, rfl,
    heapAppend_get s.valLists e.valuesRef v vs hv,
    heapAppend_get s.lwLists e.lwRef lw ws hw, ?_⟩
  simp [EmpRef.getValues, EmpRef.add, hfin]
  rw [← List.get?_eq_getElem?,
    heapAppend_get s.valLists e.valuesRef v vs hv]

/-- C7 witness: the amended statement at the concrete one-element heap. -/
theorem claim_C7_witness :
    wRef.finalized = true ∧
    wStore.valLists.get? wRef.valuesRef = some [1] ∧
    wStore.lwLists.get? wRef.lwRef = some [0] ∧
    ∃ c, wRef.copyShallow = Except.ok c ∧ c.valuesRef = wRef.valuesRef ∧
      c.lwRef = wRef.lwRef ∧
      (EmpRef.add wStore c 5 0).1.valLists.get? wRef.valuesRef =
        some ([1] ++ [5]) ∧
      (EmpRef.add wStore c 5 0).1.lwLists.get? wRef.lwRef =
        some ([0] ++ [0]) ∧
      EmpRef.getValues (EmpRef.add wStore c 5 0).1 wRef =
        Except.ok ([1] ++ [5]) :=
  ⟨rfl, rfl, rfl,
    claim_C7_shallow_copy_aliases wStore wRef 5 0 [1] [0] rfl rfl rfl⟩

/-- The error kinds the specification's `TypeMismatch` category covers:
the exceptions `combine`'s input validation raises for a non-Empirical
input (`TypeError`, or `AttributeError` when the object lacks an
`_on_disk` attribute) or for inputs of mismatched storage mode
(`RuntimeError`). -/
def isTypeMismatchErr : PyErr → Bool
  | .attributeError => true
  | .typeErrorNotEmpirical => true
  | .runtimeMismatchedMode => true
  | _ => false

/-- The validation loop fails with a TypeMismatch-category error whenever
some input is not an Empirical. -/
theorem combineCheck_err_of_nonEmp (od : Bool) :
    ∀ (args : List (CombArg ℚ)), (∃ a ∈ args, a.isEmp = false) →
      ∃ err, combineCheck od args = Except.error err ∧
        isTypeMismatchErr err = true := by
  intro args
  induction args with
  | nil => rintro ⟨a, ha, _⟩; cases ha
  | cons d ds ih =>
    rintro ⟨a, ha, hbad⟩
    match d with
    | .other none =>
      exact ⟨.attributeError,
        by simp [combineCheck, CombArg.getOnDisk, bindErr], rfl⟩
    | .other (some b) =>
      by_cases hob : b = od
      · subst hob
        exact ⟨.typeErrorNotEmpirical,
          by simp [combineCheck, CombArg.getOnDisk, CombArg.isEmp,
            bindOk], rfl⟩
      · exact ⟨.runtimeMismatchedMode,
          by simp [combineCheck, CombArg.getOnDisk, CombArg.isEmp, hob,
            bindOk], rfl⟩
    | .emp e0 =>
      by_cases hob : e0.on_disk = od
      · have hmem : a ∈ ds := by
          rcases List.mem_cons.mp ha with h | h
          · subst h; cases hbad
          · exact h
        obtain ⟨err, herr, hset⟩ := ih ⟨a, hmem, hbad⟩
        refine ⟨err, ?_, hset⟩
        simp [combineCheck, CombArg.getOnDisk, CombArg.isEmp, hob, herr,
          bindOk]
      · exact ⟨.runtimeMismatchedMode,
          by simp [combineCheck, CombArg.getOnDisk, CombArg.isEmp, hob,
            bindOk], rfl⟩

/-- The validation loop fails with the mode-mismatch `RuntimeError` when
all inputs are Empirical but one has a different storage mode. -/
theorem combineCheck_err_of_mixed (od : Bool) :
    ∀ (args : List (CombArg ℚ)), (∀ a ∈ args, a.isEmp = true) →
      (∃ a ∈ args, a.onDiskB ≠ od) →
      combineCheck od args = Except.error PyErr.runtimeMismatchedMode := by
  intro args
  induction args with
  | nil => rintro _ ⟨a, ha, _⟩; cases ha
  | cons d ds ih =>
    rintro hall ⟨a, ha, hbad⟩
    match d, hall d (List.mem_cons_self d ds) with
    | .emp e0, _ =>
      by_cases hob : e0.on_disk = od
      · have hmem : a ∈ ds := by
          rcases List.mem_cons.mp ha with h | h
          · subst h; exact absurd hob hbad
          · exact h
        have := ih
          (fun x hx => hall x (List.mem_cons_of_mem (CombArg.emp e0) hx))
          ⟨a, hmem, hbad⟩
        simp [combineCheck, CombArg.getOnDisk, CombArg.isEmp, hob, this,
          bindOk]
      · simp [combineCheck, CombArg.getOnDisk, CombArg.isEmp, hob,
          bindOk]

/-- C8: `combine` produces no collection and fails with an error of the
specification's TypeMismatch category whenever some input is not an
Empirical, and fails with the mode-mismatch `RuntimeError` whenever the
(all-Empirical) inputs do not share one storage mode. -/
theorem claim_C8_combine_type_mismatch :
    (∀ (plog : ℚ → ℚ) (args : List (CombArg ℚ))
      (target : Option (Shelf ℚ)),
      (∃ a ∈ args, a.isEmp = false) →
      ∃ err, combine plog args target = Except.error err ∧
        isTypeMismatchErr err = true) ∧
    (∀ (plog : ℚ → ℚ) (args : List (CombArg ℚ))
      (target : Option (Shelf ℚ)),
      (∀ a ∈ args, a.isEmp = true) →
      (∃ a ∈ args, ∃ b ∈ args, a.onDiskB ≠ b.onDiskB) →
      combine plog args target =
        Except.error PyErr.runtimeMismatchedMode) := by
  constructor
  · intro plog args target hbad
    cases args with
    | nil =>
      obtain ⟨a, ha, _⟩ := hbad
      cases ha
    | cons a0 rest =>
      cases a0 with
      | other od =>
        cases od with
        | none =>
          exact ⟨.attributeError,
            by simp [combine, CombArg.getOnDisk, bindErr, bindOk, exBindOk, exBindErr], rfl⟩
        | some b =>
          obtain ⟨err, herr, hset⟩ :=
            combineCheck_err_of_nonEmp b (CombArg.other (some b) :: rest)
              hbad
          exact ⟨err,
            by simp [combine, CombArg.getOnDisk, herr, bindErr, bindOk, exBindOk, exBindErr], hset⟩
      | emp e0 =>
        obtain ⟨err, herr, hset⟩ :=
          combineCheck_err_of_nonEmp e0.on_disk (CombArg.emp e0 :: rest)
            hbad
        exact ⟨err, by simp [combine, CombArg.getOnDisk, herr, bindErr,
          bindOk, exBindOk, exBindErr], hset⟩
  · intro plog args target hall hpair
    obtain ⟨a, ha, b, hb, hab⟩ := hpair
    cases args with
    | nil => cases ha
    | cons a0 rest =>
      cases a0 with
      | other od =>
        have := hall (CombArg.other od)
          (List.mem_cons_self (CombArg.other od) rest)
        simp [CombArg.isEmp] at this
      | emp e0 =>
        have hx : ∃ x ∈ CombArg.emp e0 :: rest,
            CombArg.onDiskB x ≠ e0.on_disk := by
          by_cases hae : a.onDiskB = e0.on_disk
          · exact ⟨b, hb, by rw [← hae]; exact fun h => hab h.symm⟩
          · exact ⟨a, ha, hae⟩
        have hchk := combineCheck_err_of_mixed e0.on_disk
          (CombArg.emp e0 :: rest) hall hx
        simp [combine, CombArg.getOnDisk, hchk, bindErr, bindOk,
          exBindOk, exBindErr]

/-- C8 witness: both parts applied to concrete argument lists - an
Empirical plus a non-Empirical object, and two Empiricals of different
storage modes. -/
theorem claim_C8_witness :
    (∃ a ∈ [CombArg.emp wEmpUFin, CombArg.other none],
      CombArg.isEmp a = false) ∧
    (∃ err, combine qlogZero [CombArg.emp wEmpUFin, CombArg.other none]
        none = Except.error err ∧ isTypeMismatchErr err = true) ∧
    combine qlogZero [CombArg.emp wEmpUFin, CombArg.emp wEmpDisk1] none =
      Except.error PyErr.runtimeMismatchedMode :=
  ⟨⟨CombArg.other none, by simp, rfl⟩,
    claim_C8_combine_type_mismatch.1 qlogZero
      [CombArg.emp wEmpUFin, CombArg.other none] none
      ⟨CombArg.other none, by simp, rfl⟩,
    claim_C8_combine_type_mismatch.2 qlogZero
      [CombArg.emp wEmpUFin, CombArg.emp wEmpDisk1] none
      (by rintro x hx; rcases List.mem_cons.mp hx with h | h
          · subst h; rfl
          · rcases List.mem_cons.mp h with h2 | h2
            · subst h2; rfl
            · cases h2)
      ⟨CombArg.emp wEmpUFin, by simp, CombArg.emp wEmpDisk1, by simp,
        by decide⟩⟩

/-- The shelf items produced by storing `vs` under the consecutive keys
`k+1, k+2, ...` (most recent first, as `Shelf.setVal` prepends). -/
def pushKeys {V : Type} : List (Int × V) → Int → List V → List (Int × V)
  | items, _, [] => items
  | items, k, v :: vs => pushKeys ((k + 1, v) :: items) (k + 1) vs

/-- Keys at or below the starting key are not touched by `pushKeys`. -/
theorem lookup_pushKeys_low {V : Type} :
    ∀ (vs : List V) (items : List (Int × V)) (k key : Int), key ≤ k →
      (pushKeys items k vs).lookup key = items.lookup key := by
  intro vs
  induction vs with
  | nil => intro items k key _; rfl
  | cons v vs' ih =>
    intro items k key hk
    rw [show pushKeys items k (v :: vs') =
          pushKeys ((k + 1, v) :: items) (k + 1) vs' from rfl,
      ih ((k + 1, v) :: items) (k + 1) key (le_trans hk (by omega))]
    have hne : key ≠ k + 1 := by omega
    simp [List.lookup, beq_eq_false_iff_ne.mpr hne]

/-- Looking up the `i`-th stored key after `pushKeys` returns the `i`-th
stored value. -/
theorem lookup_pushKeys {V : Type} :
    ∀ (vs : List V) (items : List (Int × V)) (k : Int) (i : Nat),
      i < vs.length →
      (pushKeys items k vs).lookup (k + 1 + i) = vs.get? i := by
  intro vs
  induction vs with
  | nil => intro _ _ _ h; exact absurd h (Nat.not_lt_zero _)
  | cons v vs' ih =>
    intro items k i hi
    rw [show pushKeys items k (v :: vs') =
          pushKeys ((k + 1, v) :: items) (k + 1) vs' from rfl]
    cases i with
    | zero =>
      have h0 : (k + 1 + ((0 : Nat) : Int)) = k + 1 := by push_cast; ring
      rw [h0, lookup_pushKeys_low vs' ((k + 1, v) :: items) (k + 1) (k + 1)
        (le_refl (k + 1))]
      simp [List.lookup]
    | succ j =>
      have : k + 1 + (j + 1 : Nat) = (k + 1) + 1 + j := by push_cast; omega
      rw [this, ih ((k + 1, v) :: items) (k + 1) j
        (Nat.lt_of_succ_lt_succ hi)]
      rfl

/-- Effect of the explicit-log-weights add loop on a persistent
collection with an open shelf: the values are stored under consecutive
keys, the log-weights are appended, the shelf stays open and the other
identity fields are unchanged (the countdown may trigger intermediate
finalizes, which only touch metadata, the sync counter and the derived
fields). -/
theorem addSeqLW_disk {V : Type} (plog : ℚ → ℚ) :
    ∀ (vs : List V) (ls : List ℚ) (e : Emp V),
    e.on_disk = true → e.shelf.closed = false → vs.length ≤ ls.length →
    ∃ e', e.addSeqLW plog vs ls = .ok e' ∧
      e'.log_weights = e.log_weights ++ ls.take vs.length ∧
      e'.shelf.items = pushKeys e.shelf.items e.file_last_key vs ∧
      e'.file_last_key = e.file_last_key + vs.length ∧
      e'.on_disk = true ∧ e'.shelf.closed = false ∧
      e'.values = e.values ∧ e'.name = e.name ∧
      e'.closedFlag = e.closedFlag ∧
      e'.file_sync_timeout = e.file_sync_timeout := by
  intro vs
  induction vs with
  | nil =>
    intro ls e hd hsh _
    exact ⟨e, rfl, by simp, rfl, by simp, hd, hsh, rfl, rfl, rfl, rfl⟩
  | cons v vs' ih =>
    intro ls e hd hsh hlen
    match ls with
    | [] => simp at hlen
    | l :: ls' =>
      have hlen' : vs'.length ≤ ls'.length := by
        simpa using Nat.le_of_succ_le_succ (by simpa using hlen)
      by_cases hcd : e.file_sync_countdown - 1 = 0
      · obtain ⟨e1, ha, _, _, _, hitems, hlw, hsh1, hdisk1, _, hlk, hts,
          hvals, hname, hcf⟩ := add_disk_sync plog e v (some l) none hd hsh
          hcd
        obtain ⟨e', hrec, p1, p2, p3, p4, p5, p6, p7, p8, p9⟩ :=
          ih ls' e1 hdisk1 hsh1 hlen'
        refine ⟨e', ?_, ?_, ?_, ?_, p4, p5, ?_, ?_, ?_, ?_⟩
        · rw [show Emp.addSeqLW plog e (v :: vs') (l :: ls') =
                (do
                  let e1 ← e.add plog v (some l) none
                  Emp.addSeqLW plog e1 vs' ls') from rfl, ha, bindOk, hrec]
        · rw [p1, hlw]
          simp [resolveLW, List.take_succ_cons, List.append_assoc]
        · rw [p2, hitems, hlk]
          rfl
        · rw [p3, hlk]
          simp only [List.length_cons]
          push_cast
          omega
        · rw [p6, hvals]
        · rw [p7, hname]
        · rw [p8, hcf]
        · rw [p9, hts]
      · have ha := add_disk_nosync_eq plog e v (some l) none hd hsh hcd
        obtain ⟨e', hrec, p1, p2, p3, p4, p5, p6, p7, p8, p9⟩ :=
          ih ls'
            { e with finalized := false, cacheMean := none,
                     cacheVariance := none, cacheMode := none,
                     cacheMin := none, cacheMax := none, cacheEss := none,
                     log_weights :=
                       e.log_weights ++ [resolveLW plog (some l) none],
                     shelf := { e.shelf with
                       items :=
                         (e.file_last_key + 1, v) :: e.shelf.items },
                     file_last_key := e.file_last_key + 1,
                     file_sync_countdown := e.file_sync_countdown - 1 }
            hd hsh hlen'
        refine ⟨e', ?_, ?_, ?_, ?_, p4, p5, ?_, ?_, ?_, ?_⟩
        · rw [show Emp.addSeqLW plog e (v :: vs') (l :: ls') =
                (do
                  let e1 ← e.add plog v (some l) none
                  Emp.addSeqLW plog e1 vs' ls') from rfl, ha, bindOk, hrec]
        · rw [p1]
          simp [resolveLW, List.take_succ_cons, List.append_assoc]
        · rw [p2]
          rfl
        · rw [p3]
          simp only [List.length_cons]
          push_cast
          omega
        · rw [p6]
        · rw [p7]
        · rw [p8]
        · rw [p9]

/-- The base state the persistent constructor establishes over a fresh
shelf before adding any batch. -/
def baseDisk {V : Type} (nm : String) (sh : Shelf V) (t : Int) : Emp V :=
  { baseEmp nm with
    on_disk := true, shelf := sh, file_last_key := -1,
    file_sync_timeout := t, file_sync_countdown := t }

/-- `Empirical(values=..., log_weights=..., file_name=...)` over a fresh
shelf: the persistent constructor stores the values under keys `0..n-1`,
appends the log-weights, and finalizes. -/
theorem initDisk_lw {V : Type} (plog : ℚ → ℚ) (v : V) (vs : List V)
    (l : ℚ) (ls : List ℚ) (t : Int) (nm : String) (sh : Shelf V)
    (hm : sh.metaLogWeights = none) (hsh : sh.closed = false)
    (hlen : vs.length ≤ ls.length) :
    ∃ d, initEmp plog (some (v :: vs)) (some (l :: ls)) none (some sh) t nm
        = .ok d ∧
      d.on_disk = true ∧ d.finalized = true ∧ d.shelf.closed = false ∧
      d.log_weights = l :: ls.take vs.length ∧
      d.length = vs.length + 1 ∧
      d.shelf.items = pushKeys sh.items (-1) (v :: vs) ∧
      d.name = nm ∧ d.values = [] ∧
      d.categorical = some (l :: ls.take vs.length) ∧
      d.closedFlag = false := by
  have hstep : initEmp plog (some (v :: vs)) (some (l :: ls)) none
      (some sh) t nm =
      (do
        let e1 ← Emp.addSeqLW plog (baseDisk nm sh t) (v :: vs) (l :: ls)
        e1.finalize) := by
    unfold initEmp
    simp [hm, Emp.addSeq, baseDisk, baseEmp]
  obtain ⟨e1, ha, q1, q2, q3, q4, q5, q6, q7, q8, q9⟩ :=
    addSeqLW_disk plog (v :: vs) (l :: ls) (baseDisk nm sh t) rfl hsh
      (by simpa using hlen)
  have hlw1 : e1.log_weights = l :: ls.take vs.length := by
    rw [q1]
    simp [baseDisk, baseEmp, List.take_succ_cons]
  rw [hstep, ha, bindOk, finalize_disk_eq e1 l (ls.take vs.length) q4 hlw1
    q5]
  refine ⟨_, rfl, q4, rfl, q5, hlw1, ?_, q2, q7, q6, rfl, q8⟩
  simp [List.length_take, Nat.min_eq_left hlen]

/-- A monadic map of `f` over `range' a n` succeeds elementwise. -/
theorem mapM_range'_eq {β : Type} (f : Nat → Except PyErr β) :
    ∀ (out : List β) (a : Nat),
      (∀ i (hi : i < out.length), f (a + i) = .ok (out.get ⟨i, hi⟩)) →
      (List.range' a out.length).mapM f = .ok out := by
  intro out
  induction out with
  | nil => intro a _; rfl
  | cons b bs ih =>
    intro a h
    show (a :: List.range' (a + 1) bs.length).mapM f = _
    have h0 : f a = Except.ok b := h 0 (Nat.succ_pos bs.length)
    have hrest : (List.range' (a + 1) bs.length).mapM f = Except.ok bs := by
      refine ih (a + 1) fun i hi => ?_
      have e2 : (a + 1) + i = a + (i + 1) := by omega
      rw [e2]
      exact h (i + 1) (Nat.succ_lt_succ hi)
    rw [List.mapM_cons, h0, bindOk, hrest, bindOk]
    rfl

/-- `get_values` of a persistent collection whose shelf items were pushed
over `src` starting at key `0` returns the pushed values in order. -/
theorem getValues_pushed {V : Type} (d : Emp V) (vs : List V)
    (src : List (Int × V)) (hfin : d.finalized = true)
    (hd : d.on_disk = true) (hsh : d.shelf.closed = false)
    (hitems : d.shelf.items = pushKeys src (-1) vs)
    (hlen : d.length = vs.length) : d.getValues = .ok vs := by
  have hone : ∀ i (hi : i < vs.length),
      d.shelf.getVal (Int.ofNat (0 + i)) = .ok (vs.get ⟨i, hi⟩) := by
    intro i hi
    unfold Shelf.getVal
    rw [if_neg (by rw [hsh]; exact fun h => nomatch h), hitems]
    have hl := lookup_pushKeys vs src (-1) i hi
    have hids : ((-1 : Int) + 1 + (i : Int)) = Int.ofNat (0 + i) := by
      show ((-1 : Int) + 1 + (i : Int)) = ((0 + i : Nat) : Int)
      push_cast
      omega
    rw [hids] at hl
    rw [hl, List.get?_eq_get hi]
  unfold Emp.getValues
  rw [if_neg (by rw [hfin]; exact fun h => nomatch h), if_pos hd, hlen]
  rw [List.range_eq_range']
  exact mapM_range'_eq (fun i => d.shelf.getVal (Int.ofNat i)) vs 0 hone

/-- C1 counterexample: the persistent-then-back round trip of an
in-memory collection named `posterior` preserves the values and the
log-weights but resets the name to the constructor default `Empirical`,
whereas the claim requires the name to be identical. -/
theorem claim_C1_counterexample :
    (do
      let e ← initEmp qlogZero (some [(1 : ℚ)]) (some [5]) none none 1000
        ("posterior")
      let d ← e.copy qlogZero (some Shelf.empty)
      let m ← d.copy qlogZero none
      pure (e.name, m.name, m.values, m.log_weights)) =
      Except.ok ("posterior", "Empirical", [1], [5]) ∧
    "Empirical" ≠ "posterior" :=
  ⟨by decide, by decide⟩

/-- C1 (amended): copying a non-empty finalized in-memory collection to a
fresh persistent store and copying the result back in memory yields a
finalized in-memory collection with identical values and log-weights in
the same order, but with the name reset to the constructor default
`Empirical` (neither copy direction passes the source's name through). -/
theorem claim_C1_roundtrip (plog : ℚ → ℚ) (e : Emp ℚ) (v : ℚ)
    (vr : List ℚ) (hfin : e.finalized = true) (hd : e.on_disk = false)
    (hv : e.values = v :: vr)
    (hlen : e.log_weights.length = e.values.length) :
    ∃ d m, e.copy plog (some Shelf.empty) = .ok d ∧
      d.copy plog none = .ok m ∧
      m.values = e.values ∧ m.log_weights = e.log_weights ∧
      m.finalized = true ∧ m.on_disk = false ∧ m.name = "Empirical" := by
  rcases hlw : e.log_weights with _ | ⟨l, lr⟩
  · rw [hlw, hv] at hlen
    simp at hlen
  · have hlr : lr.length = vr.length := by
      rw [hlw, hv] at hlen
      simpa using hlen
    obtain ⟨d, hinit, d1, d2, d3, d4, d5, d6, _, _, _, _⟩ :=
      initDisk_lw plog v vr l lr 1000 ("Empirical") Shelf.empty rfl rfl
        (le_of_eq hlr.symm)
    have hcopy1 : e.copy plog (some Shelf.empty) = .ok d := by
      unfold Emp.copy
      rw [if_neg (by rw [hfin]; exact fun h => nomatch h), if_neg
        (by rw [hd]; exact fun h => nomatch h)]
      rw [hv, hlw]
      exact hinit
    have htake : lr.take vr.length = lr := by
      rw [← hlr]
      exact List.take_length lr
    have hgv : d.getValues = .ok (v :: vr) := by
      refine getValues_pushed d (v :: vr) [] d2 d1 d3 ?_ ?_
      · rw [d6]
        rfl
      · rw [d5]
        rfl
    have hcopy2 : d.copy plog none =
        initEmp plog (some (v :: vr)) (some d.log_weights) none none 1000
          ("Empirical") := by
      unfold Emp.copy
      rw [if_neg (by rw [d2]; exact fun h => nomatch h), if_pos d1]
      rw [hgv, bindOk]
    rw [d4, htake] at hcopy2
    have hmem := initMem_lw_eq plog v vr l lr 1000 ("Empirical")
      (le_of_eq hlr.symm)
    refine ⟨d, _, hcopy1, by rw [hcopy2, hmem], ?_, ?_, rfl, rfl, rfl⟩
    · simp [hv]
    · simp [hlw, htake]

/-- C1 witness: the amended round trip at a concrete two-element
collection. -/
theorem claim_C1_witness :
    wEmpUFin.finalized = true ∧ wEmpUFin.on_disk = false ∧
      wEmpUFin.values = 3 :: [4] ∧
      wEmpUFin.log_weights.length = wEmpUFin.values.length ∧
      ∃ d m, wEmpUFin.copy qlogZero (some Shelf.empty) = .ok d ∧
        d.copy qlogZero none = .ok m ∧
        m.values = wEmpUFin.values ∧
        m.log_weights = wEmpUFin.log_weights ∧
        m.finalized = true ∧ m.on_disk = false ∧ m.name = "Empirical" :=
  ⟨rfl, rfl, rfl, rfl,
    claim_C1_roundtrip qlogZero wEmpUFin 3 [4] rfl rfl rfl rfl⟩

/-- The (value, log-weight) pairs retained by a predicate, in order:
the specification of `filter`'s accumulation loop. -/
def filterPairs {V : Type} (p : V → Bool) : List V → List ℚ → List (V × ℚ)
  | [], _ => []
  | _ :: _, [] => []
  | v :: vs, w :: ws =>
    if p v then (v, w) :: filterPairs p vs ws else filterPairs p vs ws

/-- The `weights` branch of the add loop on an in-memory collection:
every appended log-weight is the (abstract) log of the given weight. -/
theorem addSeqW_mem_cons {V : Type} (plog : ℚ → ℚ) :
    ∀ (vs : List V) (v : V) (ws : List ℚ) (w : ℚ) (e : Emp V),
    e.on_disk = false → vs.length ≤ ws.length →
    e.addSeqW plog (v :: vs) (w :: ws) =
      .ok { e with finalized := false, cacheMean := none,
                   cacheVariance := none, cacheMode := none,
                   cacheMin := none, cacheMax := none, cacheEss := none,
                   log_weights :=
                     e.log_weights ++ (w :: ws.take vs.length).map plog,
                   values := e.values ++ (v :: vs) } := by
  intro vs
  induction vs with
  | nil =>
    intro v ws w e hd _
    simp only [Emp.addSeqW, add_mem_eq plog e v none (some w) hd, bindOk,
      List.take_zero]
    rfl
  | cons v' vs' ih =>
    intro v ws w e hd hlen
    match ws with
    | [] => simp at hlen
    | w' :: ws' =>
      have hlen' : vs'.length ≤ ws'.length := by
        simpa using Nat.le_of_succ_le_succ (by simpa using hlen)
      rw [show Emp.addSeqW plog e (v :: v' :: vs') (w :: w' :: ws') =
            (do
              let e1 ← e.add plog v none (some w)
              Emp.addSeqW plog e1 (v' :: vs') (w' :: ws')) from rfl,
        add_mem_eq plog e v none (some w) hd, bindOk]
      refine Eq.trans (ih v' ws' w' _ ?_ hlen') ?_
      · exact hd
      · simp [List.append_assoc, List.take_succ_cons, resolveLW]

/-- `Empirical(values=[...], weights=[...])` for a non-empty value batch:
the stored log-weights are the logs of the given weights. -/
theorem initMem_w_eq {V : Type} (plog : ℚ → ℚ) (v : V) (vs : List V)
    (w : ℚ) (ws : List ℚ) (t : Int) (nm : String)
    (hlen : vs.length ≤ ws.length) :
    initEmp plog (some (v :: vs)) none (some (w :: ws)) none t nm =
      .ok { finalized := true, closedFlag := false,
            categorical := some ((w :: ws.take vs.length).map plog),
            log_weights := (w :: ws.take vs.length).map plog,
            length := vs.length + 1, on_disk := false, values := v :: vs,
            shelf := Shelf.empty, file_last_key := 0,
            file_sync_timeout := 0, file_sync_countdown := 0, name := nm,
            uniform_weights :=
              ((w :: ws.take vs.length).map plog).all fun x =>
                decide (x = plog w),
            cacheMean := none, cacheVariance := none, cacheMode := none,
            cacheMin := none, cacheMax := none, cacheEss := none } := by
  have hstep : initEmp plog (some (v :: vs)) none (some (w :: ws)) none t
      nm =
      (do
        let e1 ← (baseEmp nm : Emp V).addSeqW plog (v :: vs) (w :: ws)
        e1.finalize) := by
    unfold initEmp
    simp [Emp.addSeq]
  rw [hstep, addSeqW_mem_cons plog vs v ws w (baseEmp nm) rfl hlen, bindOk]
  rw [finalize_mem_eq _ (plog w) ((ws.take vs.length).map plog) rfl rfl]
  simp [baseEmp, List.length_take, Nat.min_eq_left hlen]

/-- The accumulation loop of `filter` on a finalized collection of either
storage mode computes exactly the retained (value, log-weight) pairs of
the remaining suffix; `vs` is the stored value sequence (the in-memory
value list, or the shelf contents in order), characterised by the
per-index reads of `_get_value`. -/
theorem filterLoop_read {V : Type} (e : Emp V) (p : V → Bool)
    (vs : List V) (hcat : e.categorical = some e.log_weights)
    (hread : ∀ i (hi : i < vs.length),
      e.getValueAt i = Except.ok (vs.get ⟨i, hi⟩))
    (hlen2 : vs.length = e.log_weights.length) :
    ∀ (n a : Nat) (acc : List (V × ℚ)), a + n = vs.length →
      filterLoop e p (List.range' a n) acc =
        .ok (acc ++
          filterPairs p (vs.drop a) (e.log_weights.drop a)) := by
  intro n
  induction n with
  | zero =>
    intro a acc ha
    have hva : vs.drop a = [] :=
      List.drop_eq_nil_of_le (le_of_eq (by omega))
    rw [hva]
    simp [filterLoop, filterPairs]
  | succ n ih =>
    intro a acc ha
    have hav : a < vs.length := by omega
    have haw : a < e.log_weights.length := hlen2 ▸ hav
    have hva : e.getValueAt a = Except.ok (vs.get ⟨a, hav⟩) :=
      hread a hav
    have hwa : e.getLogWeight a =
        Except.ok (e.log_weights.get ⟨a, haw⟩) := by
      have hget := List.get?_eq_get haw
      have hget2 : e.log_weights[a]? =
          some (e.log_weights.get ⟨a, haw⟩) := by
        rw [← List.get?_eq_getElem?]
        exact hget
      simp [Emp.getLogWeight, hcat, hget, hget2]
    rw [show List.range' a (n + 1) = a :: List.range' (a + 1) n from rfl,
      show filterLoop e p (a :: List.range' (a + 1) n) acc =
        (do
          let v ← e.getValueAt a
          if p v then do
            let w ← e.getLogWeight a
            filterLoop e p (List.range' (a + 1) n) (acc ++ [(v, w)])
          else filterLoop e p (List.range' (a + 1) n) acc) from rfl,
      hva, bindOk]
    rw [← List.cons_get_drop_succ (l := vs) (n := ⟨a, hav⟩),
      ← List.cons_get_drop_succ (l := e.log_weights) (n := ⟨a, haw⟩)]
    by_cases hp : p (vs.get ⟨a, hav⟩) = true
    · rw [if_pos hp, hwa, bindOk, ih (a + 1) _ (by omega)]
      rw [List.get_eq_getElem] at hp
      simp [filterPairs, hp, List.append_assoc]
    · have hp2 : p (vs.get ⟨a, hav⟩) = false := by
        revert hp
        cases p (vs.get ⟨a, hav⟩) <;> simp
      rw [if_neg hp, ih (a + 1) acc (by omega)]
      rw [List.get_eq_getElem] at hp2
      simp [filterPairs, hp2]

/-- `filter` on a finalized collection of either storage mode, with `vs`
its stored value sequence (characterised by the per-index reads of
`_get_value`): the empty short-circuit returns the object itself;
otherwise the result is a fresh in-memory collection of exactly the
retained values with their original log-weights, finalized precisely when
something was retained. -/
theorem filter_spec (plog : ℚ → ℚ) (e : Emp ℚ) (p : ℚ → Bool)
    (vs : List ℚ) (hfin : e.finalized = true)
    (hcat : e.categorical = some e.log_weights)
    (hlen : e.length = e.log_weights.length)
    (hread : ∀ i (hi : i < vs.length),
      e.getValueAt i = Except.ok (vs.get ⟨i, hi⟩))
    (hlen2 : vs.length = e.log_weights.length) :
    (e.length = 0 → e.filter plog p = .ok e) ∧
    (0 < e.length →
      ∃ r, e.filter plog p = .ok r ∧
        r.values = (filterPairs p vs e.log_weights).map Prod.fst ∧
        r.log_weights =
          (filterPairs p vs e.log_weights).map Prod.snd ∧
        r.on_disk = false ∧ r.name = "Empirical" ∧
        (filterPairs p vs e.log_weights = [] →
          r.finalized = false ∧ r.length = 0) ∧
        (filterPairs p vs e.log_weights ≠ [] →
          r.finalized = true ∧
          r.length =
            (filterPairs p vs e.log_weights).length)) := by
  constructor
  · intro h0
    unfold Emp.filter
    rw [if_neg (by rw [hfin]; exact fun h => nomatch h), if_pos h0]
  · intro hpos
    have hloop := filterLoop_read e p vs hcat hread hlen2 e.length 0 []
      (by omega)
    rw [List.drop_zero, List.drop_zero, List.nil_append] at hloop
    have hfilter : e.filter plog p =
        initEmp plog
          (some ((filterPairs p vs e.log_weights).map Prod.fst))
          (some ((filterPairs p vs e.log_weights).map Prod.snd))
          none none 1000 ("Empirical") := by
      unfold Emp.filter
      rw [if_neg (by rw [hfin]; exact fun h => nomatch h),
        if_neg (by omega), List.range_eq_range', hloop, bindOk]
    rcases hps : filterPairs p vs e.log_weights with _ | ⟨q, qs⟩
    · rw [hps] at hfilter
      simp only [List.map_nil] at hfilter
      rw [initMem_nil_eq] at hfilter
      exact ⟨baseEmp ("Empirical"), hfilter, rfl, rfl, rfl, rfl,
        fun _ => ⟨rfl, rfl⟩, fun h => absurd rfl h⟩
    · rw [hps] at hfilter
      rw [show (q :: qs).map Prod.fst = q.1 :: qs.map Prod.fst from rfl,
        show (q :: qs).map Prod.snd = q.2 :: qs.map Prod.snd from rfl,
        initMem_lw_eq plog q.1 (qs.map Prod.fst) q.2 (qs.map Prod.snd)
          1000 ("Empirical") (by simp)] at hfilter
      refine ⟨_, hfilter, ?_, ?_, rfl, rfl, ?_, fun _ => ⟨rfl, ?_⟩⟩
      · rfl
      · simp [List.take_length]
      · intro h
        cases h
      · simp

/-- The collection of scenario 2 after `add_sequence([1,2,3],
weights=[1,1,1])` and the constructor's finalize. -/
def scenE3 (plog : ℚ → ℚ) : Emp ℚ :=
  { finalized := true, closedFlag := false,
    categorical := some [plog 1, plog 1, plog 1],
    log_weights := [plog 1, plog 1, plog 1], length := 3,
    on_disk := false, values := [1, 2, 3], shelf := Shelf.empty,
    file_last_key := 0, file_sync_timeout := 0, file_sync_countdown := 0,
    name := "Empirical",
    uniform_weights :=
      [plog 1, plog 1, plog 1].all fun x => decide (x = plog 1),
    cacheMean := none, cacheVariance := none, cacheMode := none,
    cacheMin := none, cacheMax := none, cacheEss := none }

/-- The result of `filter(lambda v: v > 1)` on the scenario collection. -/
def scenR (plog : ℚ → ℚ) : Emp ℚ :=
  { finalized := true, closedFlag := false,
    categorical := some [plog 1, plog 1],
    log_weights := [plog 1, plog 1], length := 2, on_disk := false,
    values := [2, 3], shelf := Shelf.empty, file_last_key := 0,
    file_sync_timeout := 0, file_sync_countdown := 0, name := "Empirical",
    uniform_weights := [plog 1, plog 1].all fun x => decide (x = plog 1),
    cacheMean := none, cacheVariance := none, cacheMode := none,
    cacheMin := none, cacheMax := none, cacheEss := none }

/-- C3 counterexample: filtering the one-element collection `[1]` with
`v > 1` retains nothing; the constructor of the new collection skips
finalize for the empty batch, so the result is a new collection that is
NOT finalized - the claim asserts every non-empty source yields a
finalized result. -/
theorem claim_C3_counterexample :
    (do
      let e ← initEmp qlogZero (some [(1 : ℚ)]) (some [0]) none none 1000
        ("Empirical")
      let r ← e.filter qlogZero fun q => decide (1 < q)
      pure (r.finalized, r.values, e.length)) =
      Except.ok (false, ([] : List ℚ), 1) ∧ false ≠ true :=
  ⟨by decide, by decide⟩

/-- C3 (amended): filter on a finalized collection of either storage mode
(`vs` being its stored value sequence, characterised by the per-index
reads of `_get_value`) returns the source object itself when the source
is empty; otherwise a new in-memory collection holding exactly the values
satisfying the predicate, in their original order, with their original
(non-renormalized) log-weights - the new collection is finalized when at
least one value is retained and un-finalized (empty) when none is.  In
particular, filtering `[1,2,3]` with weights `[1,1,1]` by `v > 1` yields
length 2, values `[2,3]`, the original log-weights, and mean `5/2`. -/
theorem claim_C3_filter_behaviour :
    (∀ (plog : ℚ → ℚ) (e : Emp ℚ) (p : ℚ → Bool) (vs : List ℚ),
      e.finalized = true →
      e.categorical = some e.log_weights →
      e.length = e.log_weights.length →
      (∀ i (hi : i < vs.length),
        e.getValueAt i = Except.ok (vs.get ⟨i, hi⟩)) →
      vs.length = e.log_weights.length →
      (e.length = 0 → e.filter plog p = .ok e) ∧
      (0 < e.length →
        ∃ r, e.filter plog p = .ok r ∧
          r.values =
            (filterPairs p vs e.log_weights).map Prod.fst ∧
          r.log_weights =
            (filterPairs p vs e.log_weights).map Prod.snd ∧
          r.on_disk = false ∧ r.name = "Empirical" ∧
          (filterPairs p vs e.log_weights = [] →
            r.finalized = false ∧ r.length = 0) ∧
          (filterPairs p vs e.log_weights ≠ [] →
            r.finalized = true ∧
            r.length =
              (filterPairs p vs e.log_weights).length))) ∧
    (∀ (plog : ℚ → ℚ) (psoftmax : List ℚ → List ℚ),
      initEmp plog (some [(1 : ℚ), 2, 3]) none (some [1, 1, 1]) none 1000
          ("Empirical") = .ok (scenE3 plog) ∧
      (scenE3 plog).filter plog (fun q => decide (1 < q)) =
        .ok (scenR plog) ∧
      (scenR plog).length = 2 ∧ (scenR plog).values = [2, 3] ∧
      (scenR plog).log_weights = [plog 1, plog 1] ∧
      (scenR plog).mean psoftmax = .ok (5 / 2)) := by
  refine ⟨fun plog e p vs h1 h2 h3 h4 h5 =>
    filter_spec plog e p vs h1 h2 h3 h4 h5, ?_⟩
  intro plog psoftmax
  have b1 : (decide ((1 : ℚ) < 1)) = false := by decide
  have b2 : (decide ((1 : ℚ) < 2)) = true := by decide
  have b3 : (decide ((1 : ℚ) < 3)) = true := by decide
  have hinitE : initEmp plog (some [(1 : ℚ), 2, 3]) none (some [1, 1, 1])
      none 1000 ("Empirical") = .ok (scenE3 plog) := by
    rw [initMem_w_eq plog (1 : ℚ) [2, 3] (1 : ℚ) [1, 1] 1000 ("Empirical")
      (Nat.le_refl 2)]
    rfl
  have hloop := filterLoop_read (scenE3 plog)
    (fun q => decide (1 < q)) [1, 2, 3] rfl
    (fun i hi => getValueAt_mem (scenE3 plog) rfl i hi) rfl 3 0 [] rfl
  rw [List.drop_zero, List.drop_zero, List.nil_append,
    show (scenE3 plog).log_weights = [plog 1, plog 1, plog 1] from rfl]
    at hloop
  have hpairs : filterPairs (fun q => decide (1 < q)) [(1 : ℚ), 2, 3]
      [plog 1, plog 1, plog 1] = [(2, plog 1), (3, plog 1)] := by
    simp [filterPairs, b1, b2, b3]
  rw [hpairs] at hloop
  have hfilt : (scenE3 plog).filter plog (fun q => decide (1 < q)) =
      .ok (scenR plog) := by
    unfold Emp.filter
    rw [if_neg (by simp [scenE3]), if_neg (by simp [scenE3]),
      show (scenE3 plog).length = 3 from rfl, List.range_eq_range',
      hloop, bindOk,
      show [((2 : ℚ), plog 1), (3, plog 1)].map Prod.fst = [2, 3]
        from rfl,
      show [((2 : ℚ), plog 1), (3, plog 1)].map Prod.snd =
        [plog 1, plog 1] from rfl,
      initMem_lw_eq plog (2 : ℚ) [3] (plog 1) [plog 1] 1000 ("Empirical")
        (Nat.le_refl 1)]
    rfl
  have huni2 : ([plog 1, plog 1].all fun x => decide (x = plog 1)) =
      true := by
    refine (allEqHead_iff (plog 1) [plog 1]).mpr ?_
    intro x hx y hy
    simp at hx hy
    rw [hx, hy]
  have hmean : (scenR plog).mean psoftmax = .ok (5 / 2) := by
    simp [Emp.mean, Emp.expectation, scenR, huni2]
    norm_num
  exact ⟨hinitE, hfilt, rfl, rfl, rfl, hmean⟩

/-- C3 witness: the general part applied to a concrete finalized
persistent collection (values read through the shelf) and the predicate
`v < 7`. -/
theorem claim_C3_witness :
    wEmpDiskFin.finalized = true ∧
    wEmpDiskFin.categorical = some wEmpDiskFin.log_weights ∧
    wEmpDiskFin.length = wEmpDiskFin.log_weights.length ∧
    (∀ i (hi : i < ([6, 7] : List ℚ).length),
      wEmpDiskFin.getValueAt i =
        Except.ok (([6, 7] : List ℚ).get ⟨i, hi⟩)) ∧
    ([6, 7] : List ℚ).length = wEmpDiskFin.log_weights.length ∧
    ((wEmpDiskFin.length = 0 →
      wEmpDiskFin.filter qlogZero (fun q => decide (q < 7)) =
        .ok wEmpDiskFin) ∧
    (0 < wEmpDiskFin.length →
      ∃ r, wEmpDiskFin.filter qlogZero (fun q => decide (q < 7)) =
          .ok r ∧
        r.values = (filterPairs (fun q => decide (q < 7))
          ([6, 7] : List ℚ) wEmpDiskFin.log_weights).map Prod.fst ∧
        r.log_weights = (filterPairs (fun q => decide (q < 7))
          ([6, 7] : List ℚ) wEmpDiskFin.log_weights).map Prod.snd ∧
        r.on_disk = false ∧ r.name = "Empirical" ∧
        (filterPairs (fun q => decide (q < 7)) ([6, 7] : List ℚ)
            wEmpDiskFin.log_weights = [] →
          r.finalized = false ∧ r.length = 0) ∧
        (filterPairs (fun q => decide (q < 7)) ([6, 7] : List ℚ)
            wEmpDiskFin.log_weights ≠ [] →
          r.finalized = true ∧
          r.length = (filterPairs (fun q => decide (q < 7))
            ([6, 7] : List ℚ) wEmpDiskFin.log_weights).length))) :=
  ⟨rfl, rfl, rfl, wEmpDiskFin_reads, rfl,
    claim_C3_filter_behaviour.1 qlogZero wEmpDiskFin
      (fun q => decide (q < 7)) [6, 7] rfl rfl rfl wEmpDiskFin_reads rfl⟩

end PyProbEmp
